import Mathlib

/-!
Verification of the shortcutter repository (Go) against its natural-language
specification.  Strings are modelled as `List Char`; Go's byte-level string
operations coincide with this model on the ASCII data the program manipulates.
Case-insensitive regular-expression matching `(?i)` is modelled by ASCII case
folding.  Every definition is translated from the Go sources in
`src/internal` and `src/main.go`; external collaborators (the fuzzy-match
library, the JSON decoder, the filesystem) are modelled at their interface,
as documented at each definition.  Recursions that are not structural are
driven by an explicit fuel argument bounded by the input length, so that all
definitions remain kernel-computable.
-/

namespace Shortcutter

/-- Convert a string literal to the `List Char` representation used throughout. -/
def str (s : String) : List Char := s.data

/-- Go `unicode.IsSpace` (the White_Space property), used by `strings.TrimSpace`
and `strings.Fields`. -/
def isGoSpace (c : Char) : Bool :=
  c = ' ' || c = '\t' || c = '\n' || c = Char.ofNat 11 || c = Char.ofNat 12 ||
  c = '\r' || c = Char.ofNat 0x85 || c = Char.ofNat 0xA0 ||
  c = Char.ofNat 0x1680 ||
  (0x2000 ≤ c.toNat && c.toNat ≤ 0x200A) ||
  c = Char.ofNat 0x2028 || c = Char.ofNat 0x2029 ||
  c = Char.ofNat 0x202F || c = Char.ofNat 0x205F || c = Char.ofNat 0x3000

/-- The RE2 character class `\s`, i.e. `[\t\n\f\r ]`, as used by Go's
`regexp` package. -/
def reSpace (c : Char) : Bool :=
  c = '\t' || c = '\n' || c = Char.ofNat 12 || c = '\r' || c = ' '

/-- Go `strings.TrimSpace`: drop leading and trailing white space. -/
def trimSpace (s : List Char) : List Char :=
  ((s.dropWhile isGoSpace).reverse.dropWhile isGoSpace).reverse

/-- ASCII lower-casing of a character (Go `strings.ToLower` on ASCII data). -/
def lowerAscii (c : Char) : Char :=
  if 'A' ≤ c && c ≤ 'Z' then Char.ofNat (c.toNat + 32) else c

/-- ASCII upper-casing of a character (Go `strings.ToUpper` on ASCII data). -/
def upperAscii (c : Char) : Char :=
  if 'a' ≤ c && c ≤ 'z' then Char.ofNat (c.toNat - 32) else c

/-- Case-insensitive character comparison, modelling `(?i)` matching on ASCII. -/
def eqCI (a b : Char) : Bool := lowerAscii a = lowerAscii b

/-! ## Escape-sequence normalizer (`src/internal/escape.go`) -/

/-- Go `unicode.IsPrint` restricted to the Latin-1 code points that can arise
from `rune(seq[0])` in `normalizeEscapeSequence`. -/
def isPrintGo (c : Char) : Bool :=
  (0x20 ≤ c.toNat && c.toNat ≤ 0x7E) ||
  (0xA1 ≤ c.toNat && c.toNat ≤ 0xFF && c.toNat ≠ 0xAD)

/-- `normalizeSpecialSequence` from escape.go: fixed table for bracket
sequences such as `[1~`. -/
def normalizeSpecialSequence (seq : List Char) : List Char :=
  if seq.head? ≠ some '[' then seq
  else if seq = str "[A" then str "↑"
  else if seq = str "[B" then str "↓"
  else if seq = str "[C" then str "→"
  else if seq = str "[D" then str "←"
  else if seq = str "[H" then str "Home"
  else if seq = str "[F" then str "End"
  else if seq = str "[1~" then str "Home"
  else if seq = str "[2~" then str "Insert"
  else if seq = str "[3~" then str "Delete"
  else if seq = str "[4~" then str "End"
  else if seq = str "[5~" then str "Page Up"
  else if seq = str "[6~" then str "Page Down"
  else seq

/-- The table applied to a single-character part of a chorded sequence such as
`^X^E` in `normalizeControlSequence`.  The Go switch enumerates `A`–`Z`,
`@`, `_`, `\`, `]` and falls back to `"Ctrl+" + char`; every case returns
`"Ctrl+"` followed by the upper-cased character, exactly what the default
branch produces as well. -/
def chordPart (c : Char) : List Char := str "Ctrl+" ++ [upperAscii c]

/-- One step of the loop over `strings.Split(seq, "^")` in the multi-character
branch of `normalizeControlSequence`: a part with index `> 0` and nonempty
text contributes either the chord table entry (single character) or
`"^" + part`, separated from previous output by one space. -/
def chordStep (result : List Char) (part : List Char) : List Char :=
  let piece := match part with
    | [c] => chordPart c
    | _ => '^' :: part
  if result = [] then piece else result ++ ' ' :: piece

/-- The multi-character branch of `normalizeControlSequence` (sequences such
as `^X^E`): the loop skips the part before the first caret and all empty
parts, and joins the translated remaining parts with spaces. -/
def chordJoin (parts : List (List Char)) : List Char :=
  match parts with
  | [] => []
  | _ :: rest => (rest.filter (· ≠ [])).foldl chordStep []

/-- Go `strings.Split(s, "^")`. -/
def splitCaret : List Char → List (List Char)
  | [] => [[]]
  | c :: rest =>
    if c = '^' then [] :: splitCaret rest
    else
      match splitCaret rest with
      | [] => [[c]]
      | p :: ps => (c :: p) :: ps

/-- The single-character Alt branch of `normalizeControlSequence` (`^[x`):
letters are upper-cased, a space becomes `Alt+Space`, and the punctuation
switch together with its default yields `"Alt+" + char`. -/
def altSingle (c : Char) : List Char :=
  if 'a' ≤ c && c ≤ 'z' then str "Alt+" ++ [upperAscii c]
  else if 'A' ≤ c && c ≤ 'Z' then str "Alt+" ++ [c]
  else if c = ' ' then str "Alt+Space"
  else str "Alt+" ++ [c]

/-- The two-character branch of `normalizeControlSequence` (`^X`): the switch
over basic control characters. -/
def caretTwo (c : Char) : List Char :=
  if c = '@' then str "Ctrl+@"
  else if c = '[' then str "Esc"
  else if c = '\\' then str "Ctrl+\\"
  else if c = ']' then str "Ctrl+]"
  else if c = '^' then str "Ctrl+^"
  else if c = '_' then str "Ctrl+_"
  else if c = '?' then str "Backspace"
  else if 'A' ≤ c && c ≤ 'Z' then str "Ctrl+" ++ [c]
  else if 'a' ≤ c && c ≤ 'z' then str "Ctrl+" ++ [upperAscii c]
  else ['^', c]

/-- The `^[^X` sub-branch of `normalizeControlSequence`: `ctrlPart` is the
recursive normalization of the part after `^[`. -/
def altCtrl (rest ctrlPart : List Char) : List Char :=
  if ctrlPart.take 5 = str "Ctrl+" then str "Alt+" ++ ctrlPart
  else str "Alt+Ctrl+" ++ rest.tail

/-- The non-control `^[x` sub-branches of `normalizeControlSequence`: arrows,
bracket sequences, single-character Alt chords, and the verbatim fallback. -/
def altPlain (rest : List Char) : List Char :=
  if rest = str "[A" then str "↑"
  else if rest = str "[B" then str "↓"
  else if rest = str "[C" then str "→"
  else if rest = str "[D" then str "←"
  else if rest.head? = some '[' then normalizeSpecialSequence rest
  else match rest with
    | [c] => altSingle c
    | _ => str "Alt+" ++ rest

/-- The chorded-sequence fallback of `normalizeControlSequence` (`^X^E` and
similar): applies only when the sequence contains a caret and is longer than
two characters. -/
def chordFallback (seq : List Char) : List Char :=
  if seq.contains '^' && decide (2 < seq.length) then chordJoin (splitCaret seq)
  else seq

/-- `normalizeControlSequence` from escape.go.  Sequences shorter than two
characters are returned verbatim; the recursive call in the `^[^X` branch is
on the structurally smaller tail. -/
def normalizeControlSequence : List Char → List Char
  | [] => []
  | [c] => [c]
  | ['^', c] => caretTwo c
  | '^' :: '[' :: rest =>
    if 2 ≤ rest.length ∧ rest.head? = some '^' then
      altCtrl rest (normalizeControlSequence rest)
    else altPlain rest
  | seq => chordFallback seq

/-- `normalizeEscapeSequence` from escape.go, with fuel for the quoted-string
unwrapping recursion (each unwrap removes two characters, so the input length
is sufficient fuel). -/
def normEscFuel : Nat → List Char → List Char
  | _, [] => []
  | _, [c] =>
    if isPrintGo c && c ≠ '^' then [c]
    else if c = '^' then normalizeControlSequence [c]
    else [c]
  | 0, seq => seq
  | fuel + 1, seq =>
    if seq.head? = some '^' then normalizeControlSequence seq
    else if seq.head? = some '"' && seq.getLast? = some '"' then
      normEscFuel fuel (seq.drop 1 |>.dropLast)
    else seq

/-- `normalizeEscapeSequence` from escape.go: entry point of the
escape-sequence normalizer. -/
def normalizeEscapeSequence (seq : List Char) : List Char :=
  normEscFuel seq.length seq

/-! ## Claim C2 — the two-character caret table -/

/-- Claim C2 counterexample: the claimed table sends `^I` to `Tab`, but the
Escape-Sequence Normalizer returns `Ctrl+I` (its own test table in
escape_test.go expects exactly this). -/
theorem c2_counterexample : normalizeEscapeSequence (str "^I") ≠ str "Tab" := by decide

/-- Claim C2 (amended): for every recognized two-character caret sequence the
Normalizer returns the fixed label: `^[` → `Esc`, `^?` → `Backspace`,
`^@`, `^\`, `^]`, `^^`, `^_` → `Ctrl+` followed by the literal character, and
`^` followed by any ASCII letter — including `I` and `M` — → `Ctrl+` plus the
upper-cased letter. -/
theorem c2_caret_table :
    normalizeEscapeSequence (str "^[") = str "Esc" ∧
    normalizeEscapeSequence (str "^?") = str "Backspace" ∧
    normalizeEscapeSequence (str "^@") = str "Ctrl+@" ∧
    normalizeEscapeSequence (str "^\\") = str "Ctrl+\\" ∧
    normalizeEscapeSequence (str "^]") = str "Ctrl+]" ∧
    normalizeEscapeSequence (str "^^") = str "Ctrl+^" ∧
    normalizeEscapeSequence (str "^_") = str "Ctrl+_" ∧
    ∀ c : Char, ('A' ≤ c ∧ c ≤ 'Z') ∨ ('a' ≤ c ∧ c ≤ 'z') →
      normalizeEscapeSequence ['^', c] = str "Ctrl+" ++ [upperAscii c] := by
  refine ⟨by decide, by decide, by decide, by decide, by decide, by decide, by decide, ?_⟩
  intro c h
  have hne : c ≠ '@' ∧ c ≠ '[' ∧ c ≠ '\\' ∧ c ≠ ']' ∧ c ≠ '^' ∧ c ≠ '_' ∧ c ≠ '?' := by
    refine ⟨?_, ?_, ?_, ?_, ?_, ?_, ?_⟩ <;>
      (rintro rfl; rcases h with ⟨h1, h2⟩ | ⟨h1, h2⟩ <;> revert h1 h2 <;> decide)
  obtain ⟨n1, n2, n3, n4, n5, n6, n7⟩ := hne
  show normEscFuel (['^', c].length) ['^', c] = _
  rcases h with ⟨h1, h2⟩ | ⟨h1, h2⟩
  · have ha : ¬('a' ≤ c) := by
      intro hc
      have := Char.le_trans hc h2
      revert this; decide
    simp only [normEscFuel, List.head?_cons, Option.some.injEq, if_true, ite_true]
    simp only [normalizeControlSequence, caretTwo]
    simp [n1, n2, n3, n4, n5, n6, n7, h1, h2, ha, upperAscii]
  · have hA : ¬(c ≤ 'Z') := by
      intro hc
      have := Char.le_trans h1 hc
      revert this; decide
    simp only [normEscFuel, List.head?_cons, Option.some.injEq, if_true, ite_true]
    simp only [normalizeControlSequence, caretTwo]
    simp [n1, n2, n3, n4, n5, n6, n7, h1, h2, hA]

/-- Claim C2 witness: the amended table evaluated at the concrete letter `q`. -/
theorem c2_caret_table_witness :
    (('A' ≤ 'q' ∧ 'q' ≤ 'Z') ∨ ('a' ≤ 'q' ∧ 'q' ≤ 'z')) ∧
    normalizeEscapeSequence ['^', 'q'] = str "Ctrl+" ++ [upperAscii 'q'] :=
  ⟨Or.inr ⟨by decide, by decide⟩,
    c2_caret_table.2.2.2.2.2.2.2 'q' (Or.inr ⟨by decide, by decide⟩)⟩

/-! ## Key normalization and the override merger (`src/internal/shortcuts.go`) -/

/-- Case-insensitive pattern match at the head of a string, modelling an
anchored `(?i)` literal-pattern test of Go's regexp engine. -/
def matchesCI : List Char → List Char → Bool
  | [], _ => true
  | _ :: _, [] => false
  | p :: ps, c :: cs => eqCI p c && matchesCI ps cs

/-- Scanning engine of `regexp.ReplaceAllString` for a case-insensitive
literal pattern: leftmost non-overlapping matches are replaced by `rep`.
The fuel argument (bounded below by the input length) makes the recursion
structural. -/
def replFuel (pat rep : List Char) : Nat → List Char → List Char
  | _, [] => []
  | 0, s => s
  | fuel + 1, c :: cs =>
    if matchesCI pat (c :: cs) then rep ++ replFuel pat rep fuel (cs.drop (pat.length - 1))
    else c :: replFuel pat rep fuel cs

/-- `regexp.MustCompile("(?i)<pat>").ReplaceAllString(s, rep)` for the literal
patterns used by `normalizeKey`. -/
def replaceCI (pat rep s : List Char) : List Char := replFuel pat rep s.length s

/-- Go `strings.Split(s, "+")`. -/
def splitPlus : List Char → List (List Char)
  | [] => [[]]
  | c :: rest =>
    if c = '+' then [] :: splitPlus rest
    else
      match splitPlus rest with
      | [] => [[c]]
      | p :: ps => (c :: p) :: ps

/-- Go `strings.Join(parts, "+")`. -/
def joinPlus : List (List Char) → List Char
  | [] => []
  | [p] => p
  | p :: ps => p ++ '+' :: joinPlus ps

/-- The test `len(lastPart) == 1 && lastPart >= "a" && lastPart <= "z"` of
`normalizeKey`. -/
def isSingleLower : List Char → Bool
  | [c] => 'a' ≤ c && c ≤ 'z'
  | _ => false

/-- The adjustment `normalizeKey` applies to the last `+`-separated part:
upper-case a single lower-case letter, canonicalize `tab` to `Tab`. -/
def adjustLast (l : List Char) : List Char :=
  if isSingleLower l then l.map upperAscii
  else if l.map lowerAscii = str "tab" then str "Tab"
  else l

/-- Apply `adjustLast` to the final element of a part list. -/
def adjustInit : List (List Char) → List (List Char)
  | [] => []
  | [l] => [adjustLast l]
  | p :: ps => p :: adjustInit ps

/-- The split-on-`+`, adjust-last-part, re-join step at the end of
`normalizeKey`; the key is left untouched when it has no `+`. -/
def genAdjust (s : List Char) : List Char :=
  match splitPlus s with
  | [] => s
  | [_] => s
  | parts => joinPlus (adjustInit parts)

/-- The general path of `normalizeKey`: canonicalize the case of the modifier
prefixes `ctrl+`/`alt+`/`shift+`, rewrite `meta+` to `Alt+`, then adjust the
last `+`-separated part. -/
def genPath (k : List Char) : List Char :=
  genAdjust (replaceCI (str "meta+") (str "Alt+")
    (replaceCI (str "shift+") (str "Shift+")
      (replaceCI (str "alt+") (str "Alt+")
        (replaceCI (str "ctrl+") (str "Ctrl+") k))))

/-- The character class `[A-Za-z@_\[\]\\]` of the anchored caret and `C-`
patterns in `normalizeKey`. -/
def classChar (c : Char) : Bool :=
  ('A' ≤ c && c ≤ 'Z') || ('a' ≤ c && c ≤ 'z') ||
  c = '@' || c = '_' || c = '[' || c = ']' || c = '\\'

/-- The character class `[a-zA-Z]` of the anchored `M-` pattern. -/
def letterChar (c : Char) : Bool :=
  ('A' ≤ c && c ≤ 'Z') || ('a' ≤ c && c ≤ 'z')

/-- The switch of `normalizeKey` on the upper-cased character of a `^X` key. -/
def caretResult (c : Char) : List Char :=
  if c = '[' then str "Esc"
  else if c = 'I' then str "Tab"
  else if c = 'M' then str "Enter"
  else if c = 'H' then str "Backspace"
  else if c = '@' then str "Ctrl+@"
  else if c = '_' then str "Ctrl+_"
  else if c = '\\' then str "Ctrl+\\"
  else if c = ']' then str "Ctrl+]"
  else str "Ctrl+" ++ [c]

/-- The dispatch of `normalizeKey` on the trimmed key: try the three anchored
patterns `^X`, `[Cc]-X`, `[Mm]-X`, and otherwise run the general
modifier-prefix rewriting path. -/
def dispatchKey : List Char → List Char
  | ['^', c] => if classChar c then caretResult (upperAscii c) else genPath ['^', c]
  | [a, '-', c] =>
    if (a = 'C' || a = 'c') && classChar c then str "Ctrl+" ++ [upperAscii c]
    else if (a = 'M' || a = 'm') && letterChar c then str "Alt+" ++ [upperAscii c]
    else genPath [a, '-', c]
  | k => genPath k

/-- `normalizeKey` from shortcuts.go: trim the key, then dispatch on its
anchored shape. -/
def normalizeKey (key : List Char) : List Char :=
  dispatchKey (trimSpace key)

/-- The `Shortcut` record of shortcuts.go. -/
structure Shortcut where
  display : List Char
  description : List Char
  fullDescription : List Char
  type : List Char
  target : List Char
  isCustom : Bool
  deriving Repr, DecidableEq

/-- One value of the `shortcuts` table of the user configuration: Go's
`map[string]interface{}` values are a bool, a string, or an object with
optional `display`/`description`/`type`/`target` string fields (a field of
any other type is treated as absent, as the type assertions do). -/
inductive ConfigVal where
  | bool (b : Bool)
  | strv (v : List Char)
  | obj (display description type target : Option (List Char))
  deriving Repr, DecidableEq

/-- Association-list lookup, modelling Go map indexing. -/
def lookupA {β : Type} (k : List Char) : List (List Char × β) → Option β
  | [] => none
  | (k', v) :: rest => if k' = k then some v else lookupA k rest

/-- Association-list insertion (overwrite in place, append when new),
modelling Go map assignment. -/
def insertA {β : Type} (k : List Char) (v : β) : List (List Char × β) → List (List Char × β)
  | [] => [(k, v)]
  | (k', v') :: rest => if k' = k then (k, v) :: rest else (k', v') :: insertA k v rest

/-- Association-list removal, modelling Go `delete`. -/
def eraseA {β : Type} (k : List Char) (m : List (List Char × β)) : List (List Char × β) :=
  m.filter (fun p => p.1 ≠ k)

/-- The starting record of the object-rule branch of `mergeShortcuts`: the
existing entry marked user-defined, or a fresh record under the normalized
key. -/
def objBase (nk : List Char) (m : List (List Char × Shortcut)) : Shortcut :=
  match lookupA nk m with
  | some existing => { existing with isCustom := true }
  | none =>
    { display := nk, description := [], fullDescription := [],
      type := [], target := [], isCustom := true }

/-- The four optional field overrides of the object-rule branch of
`mergeShortcuts`, applied in source order. -/
def objApply (base : Shortcut) (d de ty ta : Option (List Char)) : Shortcut :=
  let s1 := match d with | some x => { base with display := x } | none => base
  let s2 := match de with | some x => { s1 with description := x } | none => s1
  let s3 := match ty with | some x => { s2 with type := x } | none => s2
  match ta with | some x => { s3 with target := x } | none => s3

/-- One iteration of the configuration loop of `mergeShortcuts`. -/
def mergeStep (m : List (List Char × Shortcut)) (kv : List Char × ConfigVal) :
    List (List Char × Shortcut) :=
  let nk := normalizeKey kv.1
  match kv.2 with
  | .bool b => if b = false then eraseA nk m else m
  | .strv v =>
    if v ≠ [] then
      match lookupA nk m with
      | some existing => insertA nk { existing with description := v, isCustom := true } m
      | none => insertA nk
          { display := nk, description := v, fullDescription := [],
            type := str "command", target := v, isCustom := true } m
    else m
  | .obj d de ty ta => insertA nk (objApply (objBase nk m) d de ty ta) m

/-- Go string comparison `<` (lexicographic), used by the final sort of
`mergeShortcuts`. -/
def ltStr : List Char → List Char → Bool
  | [], [] => false
  | [], _ :: _ => true
  | _ :: _, [] => false
  | a :: as_, b :: bs => if a < b then true else if b < a then false else ltStr as_ bs

/-- Insertion into a list sorted by `display`. -/
def sortInsert (x : Shortcut) : List Shortcut → List Shortcut
  | [] => [x]
  | y :: ys => if ltStr x.display y.display then x :: y :: ys else y :: sortInsert x ys

/-- The final `sort.Slice` of `mergeShortcuts`, ordering by `display`. -/
def sortByDisplay : List Shortcut → List Shortcut
  | [] => []
  | x :: xs => sortInsert x (sortByDisplay xs)

/-- `mergeShortcuts` from shortcuts.go: index built-ins by normalized display
label, apply the configuration rules in order, and return the entries sorted
by display label.  The configuration is modelled as the sequence of key/value
pairs in the order Go iterates them. -/
def mergeShortcuts (builtins : List Shortcut) (config : List (List Char × ConfigVal)) :
    List Shortcut :=
  sortByDisplay ((config.foldl mergeStep
    (builtins.foldl (fun m s => insertA (normalizeKey s.display) s m) [])).map (·.2))

/-! ### Association-map and sorting lemmas -/

theorem lookupA_eraseA_self {β : Type} (k : List Char) (m : List (List Char × β)) :
    lookupA k (eraseA k m) = none := by
  induction m with
  | nil => rfl
  | cons p rest ih =>
    by_cases h : p.1 = k
    · simpa [eraseA, h] using ih
    · simpa [eraseA, lookupA, h] using ih

theorem mem_map_snd_insertA {β : Type} (k : List Char) (v : β) (m : List (List Char × β)) :
    v ∈ (insertA k v m).map Prod.snd := by
  induction m with
  | nil => exact List.mem_singleton.2 rfl
  | cons p rest ih =>
    rcases p with ⟨k', v'⟩
    by_cases h : k' = k
    · rw [insertA, if_pos h]
      exact List.mem_cons_self v _
    · rw [insertA, if_neg h, List.map_cons]
      exact List.mem_cons_of_mem v' ih

theorem sortInsert_perm (x : Shortcut) (l : List Shortcut) :
    List.Perm (sortInsert x l) (x :: l) := by
  induction l with
  | nil => exact List.Perm.refl _
  | cons y ys ih =>
    by_cases h : ltStr x.display y.display
    · rw [sortInsert, if_pos h]
    · rw [sortInsert, if_neg h]
      exact (ih.cons y).trans (List.Perm.swap x y ys)

theorem sortByDisplay_perm (l : List Shortcut) : List.Perm (sortByDisplay l) l := by
  induction l with
  | nil => exact List.Perm.refl _
  | cons x xs ih =>
    exact (sortInsert_perm x (sortByDisplay xs)).trans (ih.cons x)

/-! ## Claim C9 — an empty-string override rule is a no-op -/

/-- Claim C9: merging a configuration that maps any label to the empty string
leaves the merge result exactly as it is without that rule: the string branch
of `mergeShortcuts` does nothing when the override text is empty. -/
theorem c9_empty_string_noop (builtins : List Shortcut)
    (cfg1 cfg2 : List (List Char × ConfigVal)) (L : List Char) :
    mergeShortcuts builtins (cfg1 ++ (L, ConfigVal.strv []) :: cfg2) =
      mergeShortcuts builtins (cfg1 ++ cfg2) := by
  have hstep : ∀ m, mergeStep m (L, ConfigVal.strv []) = m := fun m => rfl
  simp [mergeShortcuts, List.foldl_append, List.foldl_cons, hstep]

/-! ## Claim C6 — disable then string-override: last write wins -/

/-- Claim C6 counterexample: with an empty override string the rule is a
no-op, so the disable survives and no entry for the label remains in the
merged catalog. -/
theorem c6_counterexample :
    mergeShortcuts
      [{ display := str "Ctrl+A", description := str "Beginning of the line",
         fullDescription := [], type := str "widget",
         target := str "beginning-of-line", isCustom := false }]
      [(str "Ctrl+A", ConfigVal.bool false), (str "Ctrl+A", ConfigVal.strv [])] = [] := by
  decide

/-- Claim C6 (amended): for every catalog containing an entry with label `L`,
applying a disable rule for `L` and then a string-override rule for `L` with
nonempty text `v`, in that order, yields a catalog containing an entry for
`L` reflecting the override: a user-defined command entry whose description
and target are `v`. -/
theorem c6_last_write_wins (catalog : List Shortcut) (L v : List Char)
    (hv : v ≠ [])
    (_hmem : ∃ b ∈ catalog, normalizeKey b.display = normalizeKey L) :
    ∃ e ∈ mergeShortcuts catalog [(L, ConfigVal.bool false), (L, ConfigVal.strv v)],
      e.display = normalizeKey L ∧ e.description = v ∧ e.type = str "command" ∧
      e.target = v ∧ e.isCustom = true := by
  refine ⟨{ display := normalizeKey L, description := v, fullDescription := [],
            type := str "command", target := v, isCustom := true }, ?_,
          rfl, rfl, rfl, rfl, rfl⟩
  rw [mergeShortcuts, ((sortByDisplay_perm _).mem_iff)]
  have h1 : List.foldl mergeStep
      (catalog.foldl (fun m s => insertA (normalizeKey s.display) s m) [])
      [(L, ConfigVal.bool false), (L, ConfigVal.strv v)] =
      mergeStep (eraseA (normalizeKey L)
        (catalog.foldl (fun m s => insertA (normalizeKey s.display) s m) []))
        (L, ConfigVal.strv v) := rfl
  have h2 : mergeStep (eraseA (normalizeKey L)
        (catalog.foldl (fun m s => insertA (normalizeKey s.display) s m) []))
        (L, ConfigVal.strv v) =
      insertA (normalizeKey L)
        { display := normalizeKey L, description := v, fullDescription := [],
          type := str "command", target := v, isCustom := true }
        (eraseA (normalizeKey L)
          (catalog.foldl (fun m s => insertA (normalizeKey s.display) s m) [])) := by
    simp [mergeStep, hv, lookupA_eraseA_self]
  rw [h1, h2]
  exact mem_map_snd_insertA _ _ _

/-- Claim C6 witness: the amended statement at a concrete catalog and rule
pair. -/
theorem c6_last_write_wins_witness :
    (str "boo" ≠ ([] : List Char)) ∧
    (∃ b ∈ ([{ display := str "Ctrl+A", description := str "Beginning of the line",
               fullDescription := [], type := str "widget",
               target := str "beginning-of-line", isCustom := false }] : List Shortcut),
        normalizeKey b.display = normalizeKey (str "Ctrl+A")) ∧
    ∃ e ∈ mergeShortcuts
        [{ display := str "Ctrl+A", description := str "Beginning of the line",
           fullDescription := [], type := str "widget",
           target := str "beginning-of-line", isCustom := false }]
        [(str "Ctrl+A", ConfigVal.bool false), (str "Ctrl+A", ConfigVal.strv (str "boo"))],
      e.display = normalizeKey (str "Ctrl+A") ∧ e.description = str "boo" ∧
      e.type = str "command" ∧ e.target = str "boo" ∧ e.isCustom = true :=
  ⟨by decide, by decide,
    c6_last_write_wins _ (str "Ctrl+A") (str "boo") (by decide) (by decide)⟩

/-! ## Claim C1 — merged catalog label uniqueness -/

/-- Claim C1 counterexample: an object-valued rule that supplies a `display`
field can duplicate an existing display label, so the merged catalog is not
always duplicate-free. -/
theorem c1_counterexample :
    ¬ (mergeShortcuts
        [{ display := str "Ctrl+A", description := str "Beginning of the line",
           fullDescription := [], type := str "widget",
           target := str "beginning-of-line", isCustom := false }]
        [(str "Z", ConfigVal.obj (some (str "Ctrl+A")) none none none)]).Pairwise
      (fun a b => normalizeKey a.display ≠ normalizeKey b.display) := by
  decide

/-! ## Interactive picker (`src/internal/ui.go`) -/

/-- Go `strings.Fields`, with fuel for the jump over each word (the input
length bounds the recursion depth). -/
def fieldsFuel : Nat → List Char → List (List Char)
  | _, [] => []
  | 0, _ => []
  | n + 1, c :: cs =>
    if isGoSpace c then fieldsFuel n cs
    else (c :: cs.takeWhile (fun x => !isGoSpace x)) ::
      fieldsFuel n (cs.dropWhile (fun x => !isGoSpace x))

/-- Go `strings.Fields`: the whitespace-separated words of a string. -/
def fieldsGo (s : List Char) : List (List Char) := fieldsFuel s.length s

/-- One iteration of the word loop of `model.wrapText`: state is the list of
finished lines and the line under construction. -/
def wrapStep (maxWidth : Int) (st : List (List Char) × List Char) (word : List Char) :
    List (List Char) × List Char :=
  if st.2 = [] then (st.1, word)
  else if (st.2.length : Int) + 1 + (word.length : Int) ≤ maxWidth then
    (st.1, st.2 ++ ' ' :: word)
  else (st.1 ++ [st.2], word)

/-- `model.wrapText` from ui.go: break text into lines of at most `maxWidth`
characters without splitting words; a text without words is returned as a
single line. -/
def wrapText (text : List Char) (maxWidth : Int) : List (List Char) :=
  let words := fieldsGo text
  if words = [] then [text]
  else
    let st := words.foldl (wrapStep maxWidth) ([], [])
    if st.2 ≠ [] then st.1 ++ [st.2] else st.1

/-- Case-insensitive subsequence test: the match criterion of the external
`sahilm/fuzzy` library (the characters of the pattern must appear in order,
case-insensitively, in the target). -/
def isSubseqCI : List Char → List Char → Bool
  | [], _ => true
  | _ :: _, [] => false
  | p :: ps, c :: cs => if eqCI p c then isSubseqCI ps cs else isSubseqCI (p :: ps) cs

/-- Model of `fuzzy.Find` from the external `sahilm/fuzzy` library at its
interface: it returns exactly the indices of the targets that contain the
pattern as a case-insensitive subsequence, ranked by a score; the ranking is
modelled as index order. -/
def fuzzyFind (pattern : List Char) (targets : List (List Char)) : List Nat :=
  (List.range targets.length).filter (fun i => isSubseqCI pattern (targets.getD i []))

instance : Inhabited Shortcut :=
  ⟨{ display := [], description := [], fullDescription := [], type := [],
     target := [], isCustom := false }⟩

/-- The `model` state of the picker in ui.go. -/
structure UIModel where
  shortcuts : List Shortcut
  filtered : List Shortcut
  cursor : Int
  query : List Char
  width : Int
  height : Int
  selected : Option Shortcut
  selectedKey : List Char
  quitting : Bool
  scrollOffset : Int
  maxVisible : Int
  expandedMode : Bool
  expandedScrollOffset : Int
  expandedText : List (List Char)
  deriving Repr, DecidableEq

/-- `InitialModel` from ui.go (theme styles are rendering-only and omitted). -/
def initialModel (shortcuts : List Shortcut) : UIModel :=
  { shortcuts := shortcuts, filtered := shortcuts, cursor := 0, query := [],
    width := 0, height := 0, selected := none, selectedKey := [],
    quitting := false, scrollOffset := 0, maxVisible := 10,
    expandedMode := false, expandedScrollOffset := 0, expandedText := [] }

/-- `model.filterShortcuts` from ui.go: empty query returns the full catalog;
otherwise the fuzzy matches over `display + " " + description`. -/
def filterShortcuts (m : UIModel) : List Shortcut :=
  if m.query = [] then m.shortcuts
  else
    (fuzzyFind m.query (m.shortcuts.map (fun s => s.display ++ ' ' :: s.description))).map
      (fun i => m.shortcuts.getD i default)

/-- `model.getExpandedVisibleLines` from ui.go. -/
def getExpandedVisibleLines (m : UIModel) : Int := m.maxVisible

/-- `model.prepareExpandedText` from ui.go: wrap the cursor entry's full
description to the width of the right pane. -/
def prepareExpandedText (m : UIModel) : UIModel :=
  if m.filtered.length = 0 ∨ (m.filtered.length : Int) ≤ m.cursor then
    { m with expandedText := [str "No description available"] }
  else
    let shortcut := m.filtered.getD m.cursor.toNat default
    let fullDesc := if shortcut.fullDescription ≠ [] then shortcut.fullDescription
      else if shortcut.description ≠ [] then shortcut.description
      else str "No description available"
    let rightWidth := m.width / 2
    let maxWidth := if rightWidth - 4 < 20 then 20 else rightWidth - 4
    { m with expandedText := wrapText fullDesc maxWidth }

/-- `model.updateExpandedMode` from ui.go. -/
def updateExpandedMode (m : UIModel) : UIModel :=
  if m.expandedMode then { prepareExpandedText m with expandedScrollOffset := 0 }
  else m

/-- The key messages handled by `model.Update` in ui.go. -/
inductive KeyInput where
  | ctrlC | esc | enter | tab | up | down | left | right | ctrlD | ctrlU | backspace
  | runes (rs : List Char)
  deriving Repr, DecidableEq

/-- The `tea.KeyMsg` switch of `model.Update` from ui.go (the returned
`tea.Cmd` and the mouse/resize messages are omitted; quitting transitions
record `quitting := true`). -/
def updateKey (m : UIModel) (k : KeyInput) : UIModel :=
  match k with
  | .ctrlC => { m with quitting := true }
  | .esc => { m with quitting := true }
  | .enter =>
    if 0 < m.filtered.length ∧ m.cursor < (m.filtered.length : Int) then
      { m with selected := some (m.filtered.getD m.cursor.toNat default),
               selectedKey := str "enter", quitting := true }
    else m
  | .tab =>
    if 0 < m.filtered.length ∧ m.cursor < (m.filtered.length : Int) then
      { m with selected := some (m.filtered.getD m.cursor.toNat default),
               selectedKey := str "tab", quitting := true }
    else m
  | .up =>
    if 0 < m.cursor then
      let m1 := { m with cursor := m.cursor - 1 }
      let m2 := if m1.cursor - m1.scrollOffset < (0 : Int) then
          { m1 with scrollOffset := m1.scrollOffset - 1 } else m1
      if m2.expandedMode then prepareExpandedText m2 else m2
    else m
  | .down =>
    if m.cursor < (m.filtered.length : Int) - 1 then
      let m1 := { m with cursor := m.cursor + 1 }
      let m2 := if (9 : Int) < m1.cursor - m1.scrollOffset then
          { m1 with scrollOffset := m1.scrollOffset + 1 } else m1
      if m2.expandedMode then prepareExpandedText m2 else m2
    else m
  | .left =>
    if m.expandedMode then
      { m with expandedMode := false, expandedScrollOffset := 0, expandedText := [] }
    else m
  | .right =>
    if ¬m.expandedMode ∧ 0 < m.filtered.length ∧ m.cursor < (m.filtered.length : Int) then
      prepareExpandedText { m with expandedMode := true, expandedScrollOffset := 0 }
    else m
  | .ctrlD =>
    if m.expandedMode then
      if m.expandedScrollOffset < (m.expandedText.length : Int) - getExpandedVisibleLines m then
        { m with expandedScrollOffset := m.expandedScrollOffset + 1 }
      else m
    else m
  | .ctrlU =>
    if m.expandedMode then
      if 0 < m.expandedScrollOffset then
        { m with expandedScrollOffset := m.expandedScrollOffset - 1 }
      else m
    else m
  | .backspace =>
    if m.query ≠ [] then
      let m1 := { m with query := m.query.dropLast }
      updateExpandedMode { m1 with filtered := filterShortcuts m1, cursor := 0 }
    else m
  | .runes rs =>
    let m1 := { m with query := m.query ++ rs.filter (fun r => 32 ≤ r.toNat ∧ r.toNat < 127) }
    if rs ≠ [] then
      updateExpandedMode { m1 with filtered := filterShortcuts m1, cursor := 0, scrollOffset := 0 }
    else m1

/-! ### Field lemmas for the picker transitions -/

@[simp] theorem prepareExpandedText_query (m : UIModel) :
    (prepareExpandedText m).query = m.query := by
  unfold prepareExpandedText; split <;> rfl

@[simp] theorem prepareExpandedText_filtered (m : UIModel) :
    (prepareExpandedText m).filtered = m.filtered := by
  unfold prepareExpandedText; split <;> rfl

@[simp] theorem prepareExpandedText_cursor (m : UIModel) :
    (prepareExpandedText m).cursor = m.cursor := by
  unfold prepareExpandedText; split <;> rfl

@[simp] theorem prepareExpandedText_scrollOffset (m : UIModel) :
    (prepareExpandedText m).scrollOffset = m.scrollOffset := by
  unfold prepareExpandedText; split <;> rfl

@[simp] theorem updateExpandedMode_query (m : UIModel) :
    (updateExpandedMode m).query = m.query := by
  unfold updateExpandedMode; split <;> simp

@[simp] theorem updateExpandedMode_filtered (m : UIModel) :
    (updateExpandedMode m).filtered = m.filtered := by
  unfold updateExpandedMode; split <;> simp

@[simp] theorem updateExpandedMode_cursor (m : UIModel) :
    (updateExpandedMode m).cursor = m.cursor := by
  unfold updateExpandedMode; split <;> simp

@[simp] theorem updateExpandedMode_scrollOffset (m : UIModel) :
    (updateExpandedMode m).scrollOffset = m.scrollOffset := by
  unfold updateExpandedMode; split <;> simp

/-! ## Claim C3 — backspace in the picker -/

/-- Claim C3 counterexample: backspace does not reset `scrollOffset`.  At a
state with a non-empty query and `scrollOffset = 1`, processing backspace
leaves `scrollOffset = 1`, while the claim requires it to become 0. -/
theorem c3_counterexample :
    ({ shortcuts := [], filtered := [], cursor := 0, query := str "ab",
       width := 0, height := 0, selected := none, selectedKey := [],
       quitting := false, scrollOffset := 1, maxVisible := 10,
       expandedMode := false, expandedScrollOffset := 0,
       expandedText := [] } : UIModel).query ≠ [] ∧
    (updateKey
      { shortcuts := [], filtered := [], cursor := 0, query := str "ab",
        width := 0, height := 0, selected := none, selectedKey := [],
        quitting := false, scrollOffset := 1, maxVisible := 10,
        expandedMode := false, expandedScrollOffset := 0,
        expandedText := [] } KeyInput.backspace).scrollOffset = 1 := by
  decide

/-- Claim C3 (amended): for every state with a non-empty query, processing a
backspace event removes the last query character, recomputes the filtered
list with the fuzzy filter on the shortened query, and resets the cursor to
0; the scroll offset is left unchanged (only the printable-character branch
resets it). -/
theorem c3_backspace (m : UIModel) (h : m.query ≠ []) :
    (updateKey m KeyInput.backspace).query = m.query.dropLast ∧
    (updateKey m KeyInput.backspace).filtered =
      filterShortcuts { m with query := m.query.dropLast } ∧
    (updateKey m KeyInput.backspace).cursor = 0 ∧
    (updateKey m KeyInput.backspace).scrollOffset = m.scrollOffset := by
  simp only [updateKey, if_pos h]
  refine ⟨?_, ?_, ?_, ?_⟩ <;> simp

/-- Claim C3 witness: the amended statement at a concrete state. -/
theorem c3_backspace_witness :
    ({ shortcuts := [], filtered := [], cursor := 0, query := str "ab",
       width := 0, height := 0, selected := none, selectedKey := [],
       quitting := false, scrollOffset := 3, maxVisible := 10,
       expandedMode := false, expandedScrollOffset := 0,
       expandedText := [] } : UIModel).query ≠ [] ∧
    ((updateKey
        { shortcuts := [], filtered := [], cursor := 0, query := str "ab",
          width := 0, height := 0, selected := none, selectedKey := [],
          quitting := false, scrollOffset := 3, maxVisible := 10,
          expandedMode := false, expandedScrollOffset := 0,
          expandedText := [] } KeyInput.backspace).query = (str "ab").dropLast ∧
      (updateKey
        { shortcuts := [], filtered := [], cursor := 0, query := str "ab",
          width := 0, height := 0, selected := none, selectedKey := [],
          quitting := false, scrollOffset := 3, maxVisible := 10,
          expandedMode := false, expandedScrollOffset := 0,
          expandedText := [] } KeyInput.backspace).filtered =
        filterShortcuts
          { ({ shortcuts := [], filtered := [], cursor := 0, query := str "ab",
               width := 0, height := 0, selected := none, selectedKey := [],
               quitting := false, scrollOffset := 3, maxVisible := 10,
               expandedMode := false, expandedScrollOffset := 0,
               expandedText := [] } : UIModel) with query := (str "ab").dropLast } ∧
      (updateKey
        { shortcuts := [], filtered := [], cursor := 0, query := str "ab",
          width := 0, height := 0, selected := none, selectedKey := [],
          quitting := false, scrollOffset := 3, maxVisible := 10,
          expandedMode := false, expandedScrollOffset := 0,
          expandedText := [] } KeyInput.backspace).cursor = 0 ∧
      (updateKey
        { shortcuts := [], filtered := [], cursor := 0, query := str "ab",
          width := 0, height := 0, selected := none, selectedKey := [],
          quitting := false, scrollOffset := 3, maxVisible := 10,
          expandedMode := false, expandedScrollOffset := 0,
          expandedText := [] } KeyInput.backspace).scrollOffset = 3) :=
  ⟨by decide, c3_backspace _ (by decide)⟩

/-! ## Claim C8 — the fuzzy filter on empty and unmatched queries -/

/-- Claim C8: the filter returns the whole catalog, unchanged and in catalog
order, for an empty query; and the empty list (not an error) for a non-empty
query matched by no entry. -/
theorem c8_filter (m : UIModel) :
    (m.query = [] → filterShortcuts m = m.shortcuts) ∧
    (m.query ≠ [] →
      (∀ s ∈ m.shortcuts, isSubseqCI m.query (s.display ++ ' ' :: s.description) = false) →
      filterShortcuts m = []) := by
  constructor
  · intro h
    simp [filterShortcuts, h]
  · intro h hnone
    have hfind : fuzzyFind m.query
        (m.shortcuts.map (fun s => s.display ++ ' ' :: s.description)) = [] := by
      rw [fuzzyFind, List.filter_eq_nil_iff]
      intro i hi
      rw [List.mem_range, List.length_map] at hi
      have hget : (m.shortcuts.map (fun s => s.display ++ ' ' :: s.description)).getD i [] =
          m.shortcuts[i].display ++ ' ' :: m.shortcuts[i].description := by
        rw [List.getD_eq_getElem _ _ (by simpa using hi), List.getElem_map]
      rw [hget]
      simp [hnone _ (List.getElem_mem hi)]
    simp [filterShortcuts, h, hfind]

/-- Claim C8 witness: the statement at a concrete catalog, once with the
empty query and once with an unmatched query. -/
theorem c8_filter_witness :
    (filterShortcuts (initialModel [default]) = [default]) ∧
    ((str "zzz" ≠ ([] : List Char)) ∧
      filterShortcuts { initialModel [default] with query := str "zzz" } = []) :=
  ⟨(c8_filter (initialModel [default])).1 rfl,
    by decide,
    (c8_filter { initialModel [default] with query := str "zzz" }).2 (by decide) (by decide)⟩

/-! ## Claim C10 — text wrapping loses no content -/

/-- Strong induction on list length. -/
theorem listStrongLen {α : Type} {P : List α → Prop}
    (ih : ∀ s : List α, (∀ t : List α, t.length < s.length → P t) → P s) : ∀ s, P s := by
  intro s
  generalize hn : s.length = n
  induction n using Nat.strong_induction_on generalizing s with
  | _ n IH => exact ih s (fun t ht => IH t.length (hn ▸ ht) t rfl)

theorem dropWhile_length_le {p : Char → Bool} (l : List Char) :
    (List.dropWhile p l).length ≤ l.length :=
  (List.dropWhile_suffix p).sublist.length_le

theorem takeWhile_append_stop {p : Char → Bool} {y : Char} (xs ys : List Char)
    (hy : p y = false) :
    (xs ++ y :: ys).takeWhile p = xs.takeWhile p := by
  induction xs with
  | nil => simp [List.takeWhile, hy]
  | cons x xs ih =>
    by_cases hx : p x
    · simp [List.takeWhile_cons, hx, ih]
    · simp [List.takeWhile_cons, hx]

theorem dropWhile_append_stop {p : Char → Bool} {y : Char} (xs ys : List Char)
    (hy : p y = false) :
    (xs ++ y :: ys).dropWhile p = xs.dropWhile p ++ y :: ys := by
  induction xs with
  | nil => simp [List.dropWhile, hy]
  | cons x xs ih =>
    by_cases hx : p x
    · simp [List.dropWhile_cons, hx, ih]
    · simp [List.dropWhile_cons, hx]

theorem fieldsFuel_eq (s : List Char) : ∀ n, s.length ≤ n → fieldsFuel n s = fieldsGo s := by
  induction s using listStrongLen with
  | ih s ih =>
    intro n hn
    match s, n with
    | [], m => cases m <;> rfl
    | c :: cs, n + 1 =>
      rw [fieldsGo]
      simp only [List.length_cons] at hn ⊢
      rw [fieldsFuel, fieldsFuel]
      by_cases hc : isGoSpace c
      · rw [if_pos hc, if_pos hc,
          ih cs (by simp) n (by omega),
          ih cs (by simp) cs.length (le_refl _)]
      · rw [if_neg hc, if_neg hc,
          ih _ (by simpa using (dropWhile_length_le cs).trans_lt (by simp)) n
            (le_trans (dropWhile_length_le cs) (by omega)),
          ih _ (by simpa using (dropWhile_length_le cs).trans_lt (by simp)) cs.length
            (dropWhile_length_le cs)]

theorem fieldsGo_nil : fieldsGo [] = [] := rfl

theorem fieldsGo_cons_space {c : Char} (cs : List Char) (hc : isGoSpace c = true) :
    fieldsGo (c :: cs) = fieldsGo cs := by
  rw [fieldsGo, List.length_cons, fieldsFuel, if_pos hc, fieldsFuel_eq cs _ (le_refl _)]

theorem fieldsGo_cons_word {c : Char} (cs : List Char) (hc : isGoSpace c = false) :
    fieldsGo (c :: cs) =
      (c :: cs.takeWhile (fun x => !isGoSpace x)) ::
        fieldsGo (cs.dropWhile (fun x => !isGoSpace x)) := by
  rw [fieldsGo, List.length_cons, fieldsFuel, if_neg (by simp [hc]),
    fieldsFuel_eq _ _ (dropWhile_length_le cs)]

/-- Splitting into fields distributes over concatenation at a white-space
character. -/
theorem fieldsGo_append_space {sep : Char} (a b : List Char) (hsep : isGoSpace sep = true) :
    fieldsGo (a ++ sep :: b) = fieldsGo a ++ fieldsGo b := by
  induction a using listStrongLen with
  | ih a ih =>
    match a with
    | [] => rw [List.nil_append, fieldsGo_cons_space b hsep, fieldsGo_nil, List.nil_append]
    | c :: as_ =>
      by_cases hc : isGoSpace c
      · rw [List.cons_append, fieldsGo_cons_space _ hc, fieldsGo_cons_space _ hc,
          ih as_ (by simp)]
      · rw [List.cons_append, fieldsGo_cons_word _ (by simp [hc]),
          fieldsGo_cons_word _ (by simp [hc]),
          takeWhile_append_stop _ _ (by simp [hsep]),
          dropWhile_append_stop _ _ (by simp [hsep]),
          ih _ (by simpa using (dropWhile_length_le as_).trans_lt (by simp)),
          List.cons_append]

theorem fieldsGo_single_word (w : List Char) (hne : w ≠ [])
    (hw : ∀ x ∈ w, isGoSpace x = false) : fieldsGo w = [w] := by
  match w with
  | c :: cs =>
    rw [fieldsGo_cons_word _ (hw c (List.mem_cons_self c cs)),
      List.takeWhile_eq_self_iff.2 (by intro x hx; simp [hw x (List.mem_cons_of_mem c hx)]),
      List.dropWhile_eq_nil_iff.2 (by intro x hx; simp [hw x (List.mem_cons_of_mem c hx)]),
      fieldsGo_nil]

/-- Every field is nonempty and free of white space. -/
theorem fieldsGo_words (s : List Char) :
    ∀ w ∈ fieldsGo s, w ≠ [] ∧ ∀ x ∈ w, isGoSpace x = false := by
  induction s using listStrongLen with
  | ih s ih =>
    match s with
    | [] => intro w hw; simp [fieldsGo_nil] at hw
    | c :: cs =>
      by_cases hc : isGoSpace c
      · rw [fieldsGo_cons_space _ hc]; exact ih cs (by simp)
      · rw [fieldsGo_cons_word _ (by simp [hc])]
        intro w hw
        rcases List.mem_cons.1 hw with rfl | hw
        · refine ⟨by simp, ?_⟩
          intro x hx
          rcases List.mem_cons.1 hx with rfl | hx
          · simpa using hc
          · simpa using List.mem_takeWhile_imp hx
        · exact ih _ (by simpa using (dropWhile_length_le cs).trans_lt (by simp)) w hw

/-- Joining lines with a newline and re-splitting yields the concatenation of
each line's fields. -/
theorem fieldsGo_intercalate (ls : List (List Char)) :
    fieldsGo (List.intercalate [Char.ofNat 10] ls) = (ls.map fieldsGo).join := by
  induction ls with
  | nil => rfl
  | cons l rest ih =>
    match rest with
    | [] => simp [List.intercalate, fieldsGo_nil]
    | r :: rs =>
      have hstep : List.intercalate [Char.ofNat 10] (l :: r :: rs) =
          l ++ Char.ofNat 10 :: List.intercalate [Char.ofNat 10] (r :: rs) := by
        simp [List.intercalate, List.intersperse]
      rw [hstep, fieldsGo_append_space _ _ (by decide), ih]
      simp

/-- The words accumulated by the `wrapText` loop: finished lines followed by
the line under construction. -/
def wrapWords (st : List (List Char) × List Char) : List (List Char) :=
  (st.1.map fieldsGo).join ++ fieldsGo st.2

theorem wrapStep_words (w : Int) (st : List (List Char) × List Char) (word : List Char)
    (hword : word ≠ [] ∧ ∀ x ∈ word, isGoSpace x = false) :
    wrapWords (wrapStep w st word) = wrapWords st ++ [word] := by
  obtain ⟨hne, hw⟩ := hword
  rcases st with ⟨lines, cur⟩
  by_cases hcur : cur = ([] : List Char)
  · simp [wrapStep, hcur, wrapWords, fieldsGo_nil, fieldsGo_single_word word hne hw]
  · by_cases hfit : (cur.length : Int) + 1 + (word.length : Int) ≤ w
    · have : fieldsGo (cur ++ ' ' :: word) = fieldsGo cur ++ [word] := by
        rw [fieldsGo_append_space _ _ (by decide), fieldsGo_single_word word hne hw]
      simp [wrapStep, hcur, hfit, wrapWords, this]
    · simp [wrapStep, hcur, hfit, wrapWords, fieldsGo_single_word word hne hw,
        List.append_assoc]

theorem wrapFold_words (w : Int) (ws : List (List Char))
    (hws : ∀ word ∈ ws, word ≠ [] ∧ ∀ x ∈ word, isGoSpace x = false) :
    ∀ st, wrapWords (ws.foldl (wrapStep w) st) = wrapWords st ++ ws := by
  induction ws with
  | nil => intro st; simp
  | cons word rest ih =>
    intro st
    rw [List.foldl_cons, ih (fun x hx => hws x (List.mem_cons_of_mem _ hx)),
      wrapStep_words w st word (hws word (List.mem_cons_self _ _))]
    simp

/-- Claim C10: text wrapping loses no content — splitting the joined lines of
`wrapText` on white space yields exactly the white-space-separated words of
the input, in order, for every text and every width. -/
theorem c10_wrapText_words (text : List Char) (maxWidth : Int) :
    fieldsGo (List.intercalate [Char.ofNat 10] (wrapText text maxWidth)) = fieldsGo text := by
  rw [fieldsGo_intercalate, wrapText]
  by_cases hempty : fieldsGo text = []
  · simp [hempty, List.intercalate]
  · have hfold := wrapFold_words maxWidth (fieldsGo text) (fieldsGo_words text) ([], [])
    simp only [if_neg hempty]
    set st := (fieldsGo text).foldl (wrapStep maxWidth) ([], []) with hst
    rw [wrapWords, wrapWords] at hfold
    simp only [List.map_nil, List.join_nil, fieldsGo_nil, List.append_nil,
      List.nil_append] at hfold
    by_cases hcur : st.2 = ([] : List Char)
    · rw [if_neg (by simp [hcur])] at *
      rw [← hfold, hcur, fieldsGo_nil, List.append_nil]
    · rw [if_pos hcur]
      rw [← hfold]
      simp

/-! ## Key-binding table parser (`src/internal/bindkey.go`) -/

/-- The `BindkeyEntry` record of bindkey.go. -/
structure BindkeyEntry where
  escapeSequence : List Char
  widgetName : List Char
  displayName : List Char
  deriving Repr, DecidableEq

/-- The widget-name character class `[a-zA-Z0-9_.-]` of the bindkey line
pattern. -/
def widgetChar (c : Char) : Bool :=
  ('a' ≤ c && c ≤ 'z') || ('A' ≤ c && c ≤ 'Z') || ('0' ≤ c && c ≤ '9') ||
  c = '_' || c = '.' || c = '-'

/-- The anchored pattern `^"([^"]*)" +([a-zA-Z0-9_.-]+)$` of
`parseBindkeyOutput`: a quoted sequence, one or more spaces, and a widget
name filling the rest of the line.  Returns the two submatches. -/
def matchBindkeyLine (line : List Char) : Option (List Char × List Char) :=
  match line with
  | [] => none
  | c :: rest =>
    if c = '"' then
      match rest.dropWhile (fun x => !decide (x = '"')) with
      | [] => none
      | _ :: afterQuote =>
        -- the dropped-to character is the closing quote of `[^"]*"`
        if afterQuote.takeWhile (fun x => x = ' ') = [] then none
        else
          let widget := afterQuote.dropWhile (fun x => x = ' ')
          if widget ≠ [] ∧ widget.all widgetChar then
            some (rest.takeWhile (fun x => !decide (x = '"')), widget)
          else none
    else none

/-- The pattern `^"[^"]*"-"[^"]*"` of `parseBindkeyOutput`, recognizing range
entries such as `"^A"-"^C"` (an unanchored prefix match). -/
def matchRangeLine (line : List Char) : Bool :=
  match line with
  | [] => false
  | c :: rest =>
    if c = '"' then
      match rest.dropWhile (fun x => !decide (x = '"')) with
      | c1 :: c2 :: rest2 =>
        if c1 = '"' && c2 = '-' then
          match rest2 with
          | c3 :: rest3 =>
            if c3 = '"' then
              match rest3.dropWhile (fun x => !decide (x = '"')) with
              | c4 :: _ => c4 = '"'
              | [] => false
            else false
          | [] => false
        else false
      | _ => false
    else false

/-- `shouldSkipWidget` from bindkey.go: the noise list, internal widgets
(leading underscore), and vi-mode widgets. -/
def shouldSkipWidget (widgetName : List Char) : Bool :=
  widgetName = str "self-insert" || widgetName = str "self-insert-unmeta" ||
  widgetName = str "undefined-key" || widgetName = str "digit-argument" ||
  widgetName = str "neg-argument" || widgetName = str "universal-argument" ||
  widgetName = str "bracketed-paste" || widgetName = str "bracketed-paste-magic" ||
  widgetName = str "beep" || widgetName = str "noop" ||
  widgetName.take 1 = ['_'] || widgetName.take 3 = str "vi-"

/-- The per-line processing of `parseBindkeyOutput`: blank lines, range
entries, unmatched lines and noise widgets yield nothing; otherwise one
`BindkeyEntry` with the normalized display name. -/
def parseBindkeyLine (line : List Char) : Option BindkeyEntry :=
  let line := trimSpace line
  if line = [] then none
  else if matchRangeLine line then none
  else match matchBindkeyLine line with
    | none => none
    | some (seq, widget) =>
      if shouldSkipWidget widget then none
      else some { escapeSequence := seq, widgetName := widget,
                  displayName := normalizeEscapeSequence seq }

/-- Split text into lines at newline characters (the `bufio.Scanner` line
loop of `parseBindkeyOutput`; a trailing carriage return is stripped by the
subsequent `strings.TrimSpace`). -/
def splitLines : List Char → List (List Char)
  | [] => [[]]
  | c :: rest =>
    if c = Char.ofNat 10 then [] :: splitLines rest
    else
      match splitLines rest with
      | [] => [[c]]
      | p :: ps => (c :: p) :: ps

/-- `parseBindkeyOutput` from bindkey.go on nonempty input: scan the lines
and collect the surviving entries.  On empty input the Go function instead
triggers live acquisition from the external `zsh` process
(`getFilteredZshBindings`), which is outside this model, hence `none`. -/
def parseBindkeyOutput (output : List Char) : Option (List BindkeyEntry) :=
  if output = [] then none
  else some ((splitLines output).filterMap parseBindkeyLine)

/-- One iteration of the `filterBindkeyEntries` loop; the first component of
the state is the `seen` set of display names. -/
def filterBindkeyStep (st : List (List Char) × List BindkeyEntry) (entry : BindkeyEntry) :
    List (List Char) × List BindkeyEntry :=
  if entry.displayName = [] then st
  else if entry.displayName ∈ st.1 then st
  else
    let seen := entry.displayName :: st.1
    if entry.displayName.length = 1 ∧
        (' ' ≤ entry.displayName.headD ' ' ∧ entry.displayName.headD ' ' ≤ '~') ∧
        entry.displayName.headD ' ' ≠ '^' then
      (seen, st.2)
    else (seen, st.2 ++ [entry])

/-- `filterBindkeyEntries` from bindkey.go: drop empty display names,
duplicates (first occurrence wins), and single unshifted printable
characters. -/
def filterBindkeyEntries (entries : List BindkeyEntry) : List BindkeyEntry :=
  (entries.foldl filterBindkeyStep ([], [])).2

/-! ### Lemmas for the bindkey parser -/

theorem dropWhile_eq_self_of_head {p : Char → Bool} {s : List Char}
    (h : ∀ c, s.head? = some c → p c = false) : s.dropWhile p = s := by
  match s with
  | [] => rfl
  | c :: cs => rw [List.dropWhile_cons, if_neg (by simp [h c rfl])]

theorem trimSpace_eq_self {s : List Char}
    (h1 : ∀ c, s.head? = some c → isGoSpace c = false)
    (h2 : ∀ c, s.getLast? = some c → isGoSpace c = false) : trimSpace s = s := by
  rw [trimSpace, dropWhile_eq_self_of_head h1, dropWhile_eq_self_of_head
    (by intro c hc; exact h2 c (by rwa [List.head?_reverse] at hc)), List.reverse_reverse]

theorem charLe_toNat {a b : Char} (h : a ≤ b) : a.toNat ≤ b.toNat := by
  rw [Char.le_def, UInt32.le_def, BitVec.le_def] at h
  exact h

theorem isGoSpace_range {c : Char} (h : isGoSpace c = true) :
    c.toNat ≤ 32 ∨ 133 ≤ c.toNat := by
  rw [isGoSpace] at h
  simp only [Bool.or_eq_true, decide_eq_true_eq, Bool.and_eq_true] at h
  repeat rcases h with h | h
  all_goals try (subst h)
  all_goals try decide
  all_goals omega

theorem widgetChar_range {c : Char} (h : widgetChar c = true) :
    45 ≤ c.toNat ∧ c.toNat ≤ 122 := by
  rw [widgetChar] at h
  simp only [Bool.or_eq_true, decide_eq_true_eq, Bool.and_eq_true] at h
  rcases h with ((((⟨h1, h2⟩ | ⟨h1, h2⟩) | ⟨h1, h2⟩) | h) | h) | h
  · have g1 : 97 ≤ c.toNat := charLe_toNat h1
    have g2 : c.toNat ≤ 122 := charLe_toNat h2
    omega
  · have g1 : 65 ≤ c.toNat := charLe_toNat h1
    have g2 : c.toNat ≤ 90 := charLe_toNat h2
    omega
  · have g1 : 48 ≤ c.toNat := charLe_toNat h1
    have g2 : c.toNat ≤ 57 := charLe_toNat h2
    omega
  · subst h; decide
  · subst h; decide
  · subst h; decide

theorem widgetChar_not_space {c : Char} (h : widgetChar c = true) :
    isGoSpace c = false := by
  by_contra hc
  have hsp : isGoSpace c = true := by
    cases hval : isGoSpace c
    · exact absurd hval hc
    · rfl
  have := isGoSpace_range hsp
  have := widgetChar_range h
  omega

theorem splitLines_no_newline {a : List Char} (h : Char.ofNat 10 ∉ a) :
    splitLines a = [a] := by
  induction a with
  | nil => rfl
  | cons c cs ih =>
    rw [splitLines]
    rw [if_neg (by rintro rfl; exact h (List.mem_cons_self _ _)),
      ih (fun hm => h (List.mem_cons_of_mem _ hm))]

theorem splitLines_append {a b : List Char} (h : Char.ofNat 10 ∉ a) :
    splitLines (a ++ Char.ofNat 10 :: b) = a :: splitLines b := by
  induction a with
  | nil => simp [splitLines]
  | cons c cs ih =>
    rw [List.cons_append, splitLines,
      if_neg (by rintro rfl; exact h (List.mem_cons_self _ _)),
      ih (fun hm => h (List.mem_cons_of_mem _ hm))]

theorem dropWhile_all_append {p : Char → Bool} {xs : List Char} (ys : List Char)
    (hall : ∀ c ∈ xs, p c = true) :
    (xs ++ ys).dropWhile p = ys.dropWhile p := by
  induction xs with
  | nil => rfl
  | cons x xs ih =>
    rw [List.cons_append, List.dropWhile_cons, if_pos (hall x (List.mem_cons_self _ _)),
      ih (fun c hc => hall c (List.mem_cons_of_mem _ hc))]

theorem head?_mem {l : List Char} {c : Char} (h : l.head? = some c) : c ∈ l := by
  match l, h with
  | x :: xs, h =>
    simp only [List.head?_cons, Option.some.injEq] at h
    subst h
    exact List.mem_cons_self _ _

theorem getLast?_mem_of_eq {l : List Char} {c : Char} (h : l.getLast? = some c) : c ∈ l := by
  rcases List.mem_getLast?_eq_getLast (l := l) (x := c) (by simp [h]) with ⟨hne, rfl⟩
  exact List.getLast_mem hne

theorem getLast?_append_ne_nil {a b : List Char} (h : b ≠ []) :
    (a ++ b).getLast? = b.getLast? := by
  rw [← List.head?_reverse, List.reverse_append, ← List.head?_reverse]
  match hb : b.reverse with
  | [] => exact absurd (by simpa using congrArg List.reverse hb) h
  | x :: xs => rw [List.cons_append, List.head?_cons, List.head?_cons]

/-- A well-formed bindkey line parses to its entry. -/
theorem parseBindkeyLine_wf (seq w : List Char)
    (hq : ∀ c ∈ seq, ¬c = '"') (hw : w ≠ []) (ha : w.all widgetChar = true)
    (hs : shouldSkipWidget w = false) :
    parseBindkeyLine ('"' :: (seq ++ '"' :: ' ' :: w)) =
      some { escapeSequence := seq, widgetName := w,
             displayName := normalizeEscapeSequence seq } := by
  have hwchar : ∀ c ∈ w, widgetChar c = true := by
    intro c hc; exact List.all_eq_true.1 ha c hc
  have hdropq : List.dropWhile (fun c => !decide (c = '"')) (seq ++ '"' :: ' ' :: w) =
      '"' :: ' ' :: w := by
    rw [dropWhile_append_stop _ _ (by simp),
      List.dropWhile_eq_nil_iff.2 (by intro x hx; simpa using hq x hx), List.nil_append]
  have htakeq : List.takeWhile (fun c => !decide (c = '"')) (seq ++ '"' :: ' ' :: w) = seq := by
    rw [takeWhile_append_stop _ _ (by simp),
      List.takeWhile_eq_self_iff.2 (by intro x hx; simpa using hq x hx)]
  have hwdrop : List.dropWhile (fun c => decide (c = ' ')) w = w := by
    refine dropWhile_eq_self_of_head ?_
    intro c hc
    have hwc := hwchar c (head?_mem hc)
    simp only [decide_eq_false_iff_not]
    rintro rfl
    exact absurd hwc (by decide)
  have htrim : trimSpace ('"' :: (seq ++ '"' :: ' ' :: w)) = '"' :: (seq ++ '"' :: ' ' :: w) := by
    refine trimSpace_eq_self ?_ ?_
    · intro c hc
      simp only [List.cons_append, List.head?_cons, Option.some.injEq] at hc
      subst hc; rfl
    · intro c hc
      rw [show ('"' :: (seq ++ '"' :: ' ' :: w)) = ('"' :: seq ++ ['"', ' ']) ++ w from by simp,
        getLast?_append_ne_nil hw] at hc
      exact widgetChar_not_space (hwchar c (getLast?_mem_of_eq hc))
  have hrange : matchRangeLine ('"' :: (seq ++ '"' :: ' ' :: w)) = false := by
    simp [matchRangeLine, hdropq]
  have hmatch : matchBindkeyLine ('"' :: (seq ++ '"' :: ' ' :: w)) = some (seq, w) := by
    simp [matchBindkeyLine, hdropq, htakeq, hwdrop, hw, ha,
      List.takeWhile_cons, List.dropWhile_cons]
  rw [parseBindkeyLine, htrim]
  simp [hrange, hmatch, hs]
theorem filterBindkey_invariant (entries : List BindkeyEntry) :
    ∀ st : List (List Char) × List BindkeyEntry,
      (st.2.map (·.displayName)).Nodup →
      (∀ n ∈ st.2.map (·.displayName), n ∈ st.1) →
      ((entries.foldl filterBindkeyStep st).2.map (·.displayName)).Nodup ∧
      ∀ n ∈ (entries.foldl filterBindkeyStep st).2.map (·.displayName),
        n ∈ (entries.foldl filterBindkeyStep st).1 := by
  induction entries with
  | nil => intro st h1 h2; exact ⟨h1, h2⟩
  | cons e rest ih =>
    intro st h1 h2
    rw [List.foldl_cons]
    by_cases hd : e.displayName = []
    · have hstep : filterBindkeyStep st e = st := by
        simp only [filterBindkeyStep]
        rw [if_pos hd]
      rw [hstep]
      exact ih st h1 h2
    · by_cases hseen : e.displayName ∈ st.1
      · have hstep : filterBindkeyStep st e = st := by
          simp only [filterBindkeyStep]
          rw [if_neg hd, if_pos hseen]
        rw [hstep]
        exact ih st h1 h2
      · by_cases hp : e.displayName.length = 1 ∧
            (' ' ≤ e.displayName.headD ' ' ∧ e.displayName.headD ' ' ≤ '~') ∧
            e.displayName.headD ' ' ≠ '^'
        · have hstep : filterBindkeyStep st e = (e.displayName :: st.1, st.2) := by
            simp only [filterBindkeyStep]
            rw [if_neg hd, if_neg hseen, if_pos hp]
          rw [hstep]
          refine ih _ h1 ?_
          intro n hn
          exact List.mem_cons_of_mem _ (h2 n hn)
        · have hstep : filterBindkeyStep st e = (e.displayName :: st.1, st.2 ++ [e]) := by
            simp only [filterBindkeyStep]
            rw [if_neg hd, if_neg hseen, if_neg hp]
          rw [hstep]
          refine ih _ ?_ ?_
          · simp only [List.map_append, List.map_cons, List.map_nil]
            rw [List.nodup_append]
            refine ⟨h1, List.nodup_singleton _, fun n hn hn2 => ?_⟩
            rw [List.mem_singleton] at hn2
            subst hn2
            exact hseen (h2 _ hn)
          · intro n hn
            simp only [List.map_append, List.map_cons, List.map_nil, List.mem_append,
              List.mem_singleton] at hn
            rcases hn with hn | hn
            · exact List.mem_cons_of_mem _ (h2 n hn)
            · subst hn; exact List.mem_cons_self _ _

/-! ## Claim C5 — bindkey parse deduplication -/

/-- Claim C5 counterexample: two lines with the same raw sequence `a` and
different command names produce zero records, not one — the shared display
label is a single printable character, which the post-filter drops. -/
theorem c5_counterexample :
    (parseBindkeyOutput (str "\"a\" aaa\n\"a\" bbb")).map filterBindkeyEntries =
      some [] := by
  decide

/-- Claim C5 (amended): feeding the parser two well-formed lines with the
same raw sequence and different command names, both of which survive the
widget noise filter, yields after post-filtering exactly one record — the
first line's — provided the shared normalized label is nonempty and not a
single unshifted printable character; and the post-filter output never
contains two entries with the same display label. -/
theorem c5_parse_dedup :
    (∀ seq w1 w2 : List Char,
      (∀ c ∈ seq, ¬c = '"') → Char.ofNat 10 ∉ seq →
      w1 ≠ [] → w1.all widgetChar = true → shouldSkipWidget w1 = false →
      w2 ≠ [] → w2.all widgetChar = true → shouldSkipWidget w2 = false →
      normalizeEscapeSequence seq ≠ [] →
      ¬((normalizeEscapeSequence seq).length = 1 ∧
        (' ' ≤ (normalizeEscapeSequence seq).headD ' ' ∧
          (normalizeEscapeSequence seq).headD ' ' ≤ '~') ∧
        (normalizeEscapeSequence seq).headD ' ' ≠ '^') →
      (parseBindkeyOutput (('"' :: (seq ++ '"' :: ' ' :: w1)) ++
          Char.ofNat 10 :: ('"' :: (seq ++ '"' :: ' ' :: w2)))).map filterBindkeyEntries =
        some [{ escapeSequence := seq, widgetName := w1,
                displayName := normalizeEscapeSequence seq }]) ∧
    (∀ entries : List BindkeyEntry,
      ((filterBindkeyEntries entries).map (·.displayName)).Nodup) := by
  constructor
  · intro seq w1 w2 hq hn hw1 ha1 hs1 hw2 ha2 hs2 hd1 hd2
    have hnl1 : Char.ofNat 10 ∉ '"' :: (seq ++ '"' :: ' ' :: w1) := by
      intro hm
      rcases List.mem_cons.1 hm with hm | hm
      · exact absurd hm.symm (by decide)
      rcases List.mem_append.1 hm with hm | hm
      · exact hn hm
      rcases List.mem_cons.1 hm with hm | hm
      · exact absurd hm.symm (by decide)
      rcases List.mem_cons.1 hm with hm | hm
      · exact absurd hm.symm (by decide)
      · have := List.all_eq_true.1 ha1 _ hm
        exact absurd this (by decide)
    have hnl2 : Char.ofNat 10 ∉ '"' :: (seq ++ '"' :: ' ' :: w2) := by
      intro hm
      rcases List.mem_cons.1 hm with hm | hm
      · exact absurd hm.symm (by decide)
      rcases List.mem_append.1 hm with hm | hm
      · exact hn hm
      rcases List.mem_cons.1 hm with hm | hm
      · exact absurd hm.symm (by decide)
      rcases List.mem_cons.1 hm with hm | hm
      · exact absurd hm.symm (by decide)
      · have := List.all_eq_true.1 ha2 _ hm
        exact absurd this (by decide)
    rw [parseBindkeyOutput, if_neg (by simp)]
    rw [splitLines_append hnl1, splitLines_no_newline hnl2]
    rw [List.filterMap_cons, List.filterMap_cons, List.filterMap_nil,
      parseBindkeyLine_wf seq w1 hq hw1 ha1 hs1,
      parseBindkeyLine_wf seq w2 hq hw2 ha2 hs2]
    show some (filterBindkeyEntries
      [{ escapeSequence := seq, widgetName := w1, displayName := normalizeEscapeSequence seq },
       { escapeSequence := seq, widgetName := w2, displayName := normalizeEscapeSequence seq }]) = _
    refine congrArg some ?_
    unfold filterBindkeyEntries
    rw [List.foldl_cons, List.foldl_cons, List.foldl_nil]
    rw [show filterBindkeyStep ([], [])
        { escapeSequence := seq, widgetName := w1,
          displayName := normalizeEscapeSequence seq } =
        ([normalizeEscapeSequence seq],
          [{ escapeSequence := seq, widgetName := w1,
             displayName := normalizeEscapeSequence seq }]) from by
      simp only [filterBindkeyStep]
      rw [if_neg hd1, if_neg (List.not_mem_nil _), if_neg hd2, List.nil_append]]
    simp [filterBindkeyStep, hd1]
  · intro entries
    exact (filterBindkey_invariant entries ([], []) (by simp) (by simp)).1

/-- Claim C5 witness: the amended statement at the concrete table
`"^A" beginning-of-line` / `"^A" accept-line`. -/
theorem c5_parse_dedup_witness :
    (parseBindkeyOutput (str "\"^A\" beginning-of-line\n\"^A\" accept-line")).map
        filterBindkeyEntries =
      some [{ escapeSequence := str "^A", widgetName := str "beginning-of-line",
              displayName := normalizeEscapeSequence (str "^A") }] :=
  c5_parse_dedup.1 (str "^A") (str "beginning-of-line") (str "accept-line")
    (by decide) (by decide) (by decide) (by decide) (by decide)
    (by decide) (by decide) (by decide) (by decide) (by decide)

/-! ## Catalog cache (`src/internal/cache.go`) -/

/-- The `WidgetDescription` record of manpage.go. -/
structure WidgetDescription where
  widgetName : List Char
  shortDescription : List Char
  fullDescription : List Char
  deriving Repr, DecidableEq

/-- The `CacheData` snapshot of cache.go (the timestamp is abstracted to a
number). -/
structure CacheData where
  bindkeyEntries : List BindkeyEntry
  manDescriptions : List (List Char × WidgetDescription)
  cacheVersion : List Char
  timestamp : Nat
  zshBinaryHash : List Char
  zshrcHash : List Char
  deriving Repr, DecidableEq

/-- The observable state of the cache file for `LoadCache`: it does not
exist, it exists but cannot be read, or it holds some bytes. -/
inductive FileState where
  | absent
  | unreadable
  | content (data : List Char)
  deriving Repr, DecidableEq

/-- `CacheManager.LoadCache` from cache.go over the file-state model.
`decode` models `json.Unmarshal` into `CacheData`: `none` when the bytes do
not decode.  A missing file yields `(nil, nil)`; a read failure or a decode
failure is an error; otherwise the snapshot is returned and trusted without
revalidation. -/
def loadCache (fs : FileState) (decode : List Char → Option CacheData) :
    Except (List Char) (Option CacheData) :=
  match fs with
  | .absent => .ok none
  | .unreadable => .error (str "failed to read cache file")
  | .content data =>
    match decode data with
    | none => .error (str "failed to parse cache data")
    | some cacheData => .ok (some cacheData)

/-! ## Claim C7 — cache loading errors exactly on undecodable snapshots -/

/-- Claim C7: `LoadCache` returns absence (no snapshot, no error) when the
cache file does not exist, and an error — never an empty or default
catalog — when the persisted snapshot exists but fails to read or decode;
a decodable snapshot is returned as-is. -/
theorem c7_loadCache (decode : List Char → Option CacheData) :
    (loadCache FileState.absent decode = Except.ok none) ∧
    (loadCache FileState.unreadable decode =
      Except.error (str "failed to read cache file")) ∧
    (∀ data, decode data = none →
      loadCache (FileState.content data) decode =
        Except.error (str "failed to parse cache data")) ∧
    (∀ data cd, decode data = some cd →
      loadCache (FileState.content data) decode = Except.ok (some cd)) := by
  refine ⟨rfl, rfl, ?_, ?_⟩
  · intro data h
    simp [loadCache, h]
  · intro data cd h
    simp [loadCache, h]

/-- Claim C7 witness: the statement at a concrete decoder that rejects
everything, and at one that accepts a fixed snapshot. -/
theorem c7_loadCache_witness :
    ((fun _ : List Char => (none : Option CacheData)) (str "junk") = none ∧
      loadCache (FileState.content (str "junk")) (fun _ => none) =
        Except.error (str "failed to parse cache data")) ∧
    loadCache FileState.absent (fun _ => none) = Except.ok none :=
  ⟨⟨rfl, (c7_loadCache (fun _ => none)).2.2.1 (str "junk") rfl⟩,
    (c7_loadCache (fun _ => none)).1⟩

/-! ## Manual-page description extraction (`src/internal/manpage.go`) -/

/-- The scanning engine of `regexp.ReplaceAllString` for the pattern `\s+`
with replacement `" "`: a maximal run of `\s` characters becomes one space.
The flag records whether the scanner is inside a run. -/
def collapseGo : Bool → List Char → List Char
  | _, [] => []
  | inRun, c :: cs =>
    if reSpace c then
      if inRun then collapseGo true cs else ' ' :: collapseGo true cs
    else c :: collapseGo false cs

/-- `regexp.MustCompile("\\s+").ReplaceAllString(text, " ")` from
`extractFirstSentence`. -/
def collapseWS (s : List Char) : List Char := collapseGo false s

/-- The class `[.!?]` of the sentence-end pattern. -/
def sentPunct (c : Char) : Bool := c = '.' || c = '!' || c = '?'

/-- `FindStringIndex` of the pattern `([.!?])(\s|$)`: the position of the
leftmost sentence-ending punctuation character that is followed by white
space or the end of the text. -/
def findSentEnd : List Char → Option Nat
  | [] => none
  | c :: cs =>
    if sentPunct c && (cs.isEmpty || reSpace (cs.headD ' ')) then some 0
    else (findSentEnd cs).map (· + 1)

/-- The body of `extractFirstSentence` after the clean-up steps: cut at the
first sentence end; otherwise truncate long text with an ellipsis or append
a period (the `strings.HasSuffix` tests of a one-character suffix are the
tests on the last character). -/
def extractCore (t : List Char) : List Char :=
  match findSentEnd t with
  | some i => trimSpace (t.take (i + 1))
  | none =>
    if 100 < t.length then t.take 97 ++ str "..."
    else
      if t ≠ [] ∧ ¬t.getLast? = some '.' ∧ ¬t.getLast? = some '!' ∧
          ¬t.getLast? = some '?' then
        t ++ ['.']
      else t

/-- `extractFirstSentence` from manpage.go: trim and collapse white space,
then cut, truncate or punctuate via `extractCore`. -/
def extractFirstSentence (text : List Char) : List Char :=
  if text = [] then [] else extractCore (collapseWS (trimSpace text))

/-! ### Lemmas on white space, collapsing and trimming -/

theorem ne_true_of_eq_false {b : Bool} (h : b = false) : ¬b = true := by
  rw [h]; decide

theorem reSpace_isGoSpace {c : Char} (h : reSpace c = true) : isGoSpace c = true := by
  rw [reSpace] at h
  simp only [Bool.or_eq_true, decide_eq_true_eq] at h
  rcases h with (((h | h) | h) | h) | h <;> subst h <;> decide

theorem not_reSpace_of_not_go {c : Char} (h : isGoSpace c = false) : reSpace c = false := by
  cases hr : reSpace c with
  | false => rfl
  | true => rw [reSpace_isGoSpace hr] at h; exact absurd h (by decide)

theorem sentPunct_not_space {c : Char} (h : sentPunct c = true) : isGoSpace c = false := by
  rw [sentPunct] at h
  simp only [Bool.or_eq_true, decide_eq_true_eq] at h
  rcases h with (h | h) | h <;> subst h <;> decide

theorem dropWhile_head_not {p : Char → Bool} : ∀ (l : List Char) {c : Char},
    (l.dropWhile p).head? = some c → p c = false := by
  intro l
  induction l with
  | nil => intro c h; simp [List.dropWhile] at h
  | cons x xs ih =>
    intro c h
    rw [List.dropWhile_cons] at h
    cases hp : p x with
    | true => rw [if_pos hp] at h; exact ih h
    | false =>
      rw [if_neg (ne_true_of_eq_false hp)] at h
      rw [List.head?_cons] at h
      injection h with h2
      subst h2
      exact hp

theorem trimSpace_head_not {s : List Char} {c : Char}
    (h : (trimSpace s).head? = some c) : isGoSpace c = false := by
  rw [trimSpace, List.head?_reverse] at h
  obtain ⟨pre, hpre⟩ := List.dropWhile_suffix (l := (s.dropWhile isGoSpace).reverse)
    (p := isGoSpace)
  have hne : (s.dropWhile isGoSpace).reverse.dropWhile isGoSpace ≠ [] := by
    intro h0; rw [h0] at h; exact Option.noConfusion h
  have hl : ((s.dropWhile isGoSpace).reverse).getLast? = some c := by
    rw [← hpre, getLast?_append_ne_nil hne]; exact h
  rw [← List.head?_reverse, List.reverse_reverse] at hl
  exact dropWhile_head_not _ hl

theorem trimSpace_getLast_not {s : List Char} {c : Char}
    (h : (trimSpace s).getLast? = some c) : isGoSpace c = false := by
  rw [trimSpace, ← List.head?_reverse, List.reverse_reverse] at h
  exact dropWhile_head_not _ h

theorem collapseGo_cons (b : Bool) (c : Char) (cs : List Char) :
    collapseGo b (c :: cs) =
      if reSpace c then
        (if b then collapseGo true cs else ' ' :: collapseGo true cs)
      else c :: collapseGo false cs := rfl

/-- Output predicate of the `\s+` collapse: every regex-space character is a
plain blank, and no two adjacent characters are both regex spaces. -/
def CollapsedP (s : List Char) : Prop :=
  (∀ c ∈ s, reSpace c = true → c = ' ') ∧
  s.Chain' (fun a b => ¬(reSpace a = true ∧ reSpace b = true))

theorem collapseGo_ne_nil : ∀ (s : List Char), (∃ c ∈ s, reSpace c = false) →
    ∀ b, collapseGo b s ≠ [] := by
  intro s
  induction s with
  | nil =>
    intro hex b
    rcases hex with ⟨c, hc, _⟩
    exact absurd hc (List.not_mem_nil c)
  | cons d ds ih =>
    intro hex b
    cases hd : reSpace d with
    | false =>
      rw [collapseGo_cons, if_neg (ne_true_of_eq_false hd)]
      simp
    | true =>
      rcases hex with ⟨c, hc, hcf⟩
      rcases List.mem_cons.mp hc with rfl | hc2
      · rw [hd] at hcf; exact absurd hcf (by decide)
      · have hih := ih ⟨c, hc2, hcf⟩
        rw [collapseGo_cons, if_pos hd]
        cases b with
        | true => rw [if_pos rfl]; exact hih true
        | false => rw [if_neg (by decide)]; simp

theorem collapseGo_head_not {b : Bool} {s : List Char} {c : Char}
    (hs : ∀ d, s.head? = some d → isGoSpace d = false)
    (h : (collapseGo b s).head? = some c) : isGoSpace c = false := by
  match s with
  | [] => simp [collapseGo] at h
  | d :: ds =>
    have hd := hs d rfl
    rw [collapseGo_cons, if_neg (ne_true_of_eq_false (not_reSpace_of_not_go hd)),
      List.head?_cons] at h
    injection h with h2
    subst h2
    exact hd

theorem collapseGo_getLast_not : ∀ (s : List Char),
    (∀ d, s.getLast? = some d → isGoSpace d = false) →
    ∀ (b : Bool) (c : Char), (collapseGo b s).getLast? = some c → isGoSpace c = false := by
  intro s
  induction s with
  | nil =>
    intro _ b c h
    simp [collapseGo] at h
  | cons d ds ih =>
    intro hs b c h
    cases hd : reSpace d with
    | true =>
      cases ds with
      | nil =>
        have h1 := hs d rfl
        rw [reSpace_isGoSpace hd] at h1
        exact absurd h1 (by decide)
      | cons e es =>
        have hs2 : ∀ y, (e :: es).getLast? = some y → isGoSpace y = false := by
          intro y hy
          exact hs y (by rw [List.getLast?_cons_cons]; exact hy)
        obtain ⟨z, hz⟩ : ∃ z, (e :: es).getLast? = some z :=
          ⟨_, List.getLast?_eq_getLast _ (by simp)⟩
        have hex : ∃ y ∈ (e :: es), reSpace y = false :=
          ⟨z, getLast?_mem_of_eq hz, not_reSpace_of_not_go (hs2 z hz)⟩
        have hne := collapseGo_ne_nil (e :: es) hex true
        rw [collapseGo_cons, if_pos hd] at h
        cases b with
        | true =>
          rw [if_pos rfl] at h
          exact ih hs2 true c h
        | false =>
          rw [if_neg (by decide)] at h
          rw [show (' ' :: collapseGo true (e :: es)) = [' '] ++ collapseGo true (e :: es)
            from rfl, getLast?_append_ne_nil hne] at h
          exact ih hs2 true c h
    | false =>
      rw [collapseGo_cons, if_neg (ne_true_of_eq_false hd)] at h
      cases hX : collapseGo false ds with
      | nil =>
        rw [hX] at h
        have hdc : d = c := by simpa using h
        subst hdc
        cases ds with
        | nil => exact hs d rfl
        | cons e es =>
          exfalso
          obtain ⟨z, hz⟩ : ∃ z, (e :: es).getLast? = some z :=
            ⟨_, List.getLast?_eq_getLast _ (by simp)⟩
          have hzg : isGoSpace z = false := hs z (by rw [List.getLast?_cons_cons]; exact hz)
          have hex : ∃ y ∈ (e :: es), reSpace y = false :=
            ⟨z, getLast?_mem_of_eq hz, not_reSpace_of_not_go hzg⟩
          exact collapseGo_ne_nil (e :: es) hex false hX
      | cons x xs =>
        rw [hX, List.getLast?_cons_cons, ← hX] at h
        cases ds with
        | nil => simp [collapseGo] at hX
        | cons e es =>
          have hs2 : ∀ y, (e :: es).getLast? = some y → isGoSpace y = false := fun y hy =>
            hs y (by rw [List.getLast?_cons_cons]; exact hy)
          exact ih hs2 false c h

theorem collapseGo_true_head : ∀ (s : List Char) (c : Char),
    (collapseGo true s).head? = some c → reSpace c = false := by
  intro s
  induction s with
  | nil => intro c h; simp [collapseGo] at h
  | cons d ds ih =>
    intro c h
    cases hd : reSpace d with
    | true =>
      rw [collapseGo_cons, if_pos hd, if_pos rfl] at h
      exact ih c h
    | false =>
      rw [collapseGo_cons, if_neg (ne_true_of_eq_false hd), List.head?_cons] at h
      injection h with h2
      subst h2
      exact hd

theorem collapseGo_collapsed : ∀ (s : List Char) (b : Bool), CollapsedP (collapseGo b s) := by
  intro s
  induction s with
  | nil =>
    intro b
    exact ⟨fun c hc => absurd hc (List.not_mem_nil c), List.chain'_nil⟩
  | cons d ds ih =>
    intro b
    cases hd : reSpace d with
    | true =>
      have hcoll := ih true
      cases b with
      | true =>
        rw [collapseGo_cons, if_pos hd, if_pos rfl]
        exact hcoll
      | false =>
        rw [collapseGo_cons, if_pos hd, if_neg (by decide)]
        obtain ⟨ihP, ihC⟩ := hcoll
        refine ⟨?_, ?_⟩
        · intro c hc hrc
          rcases List.mem_cons.mp hc with rfl | hc2
          · rfl
          · exact ihP c hc2 hrc
        · rw [List.chain'_cons']
          refine ⟨?_, ihC⟩
          intro y hy hand
          have hyh := collapseGo_true_head ds y (Option.mem_def.mp hy)
          rw [hyh] at hand
          exact absurd hand.2 (by decide)
    | false =>
      rw [collapseGo_cons, if_neg (ne_true_of_eq_false hd)]
      obtain ⟨ihP, ihC⟩ := ih false
      refine ⟨?_, ?_⟩
      · intro c hc hrc
        rcases List.mem_cons.mp hc with rfl | hc2
        · rw [hd] at hrc; exact absurd hrc (by decide)
        · exact ihP c hc2 hrc
      · rw [List.chain'_cons']
        refine ⟨?_, ihC⟩
        intro y hy hand
        rw [hd] at hand
        exact absurd hand.1 (by decide)

theorem collapsed_fix : ∀ (s : List Char), CollapsedP s →
    collapseGo false s = s ∧
      ((∀ c, s.head? = some c → reSpace c = false) → collapseGo true s = s) := by
  intro s
  induction s with
  | nil => intro _; exact ⟨rfl, fun _ => rfl⟩
  | cons d ds ih =>
    intro hcp
    obtain ⟨hP, hC⟩ := hcp
    have hCds : CollapsedP ds :=
      ⟨fun c hc => hP c (List.mem_cons_of_mem _ hc), hC.tail⟩
    obtain ⟨ih1, ih2⟩ := ih hCds
    cases hd : reSpace d with
    | true =>
      have hd2 : d = ' ' := hP d (List.mem_cons_self _ _) hd
      have hdsh : ∀ c, ds.head? = some c → reSpace c = false := by
        intro c hc
        rw [List.chain'_cons'] at hC
        have hyc := hC.1 c (Option.mem_def.mpr hc)
        cases hrc : reSpace c with
        | false => rfl
        | true => exact absurd ⟨hd, hrc⟩ hyc
      constructor
      · rw [collapseGo_cons, if_pos hd, if_neg (by decide), ih2 hdsh, hd2]
      · intro hh
        have hfalse := hh d rfl
        rw [hd] at hfalse
        exact absurd hfalse (by decide)
    | false =>
      constructor
      · rw [collapseGo_cons, if_neg (ne_true_of_eq_false hd), ih1]
      · intro _
        rw [collapseGo_cons, if_neg (ne_true_of_eq_false hd), ih1]

theorem collapseWS_head_not {s : List Char} {c : Char}
    (hs : ∀ d, s.head? = some d → isGoSpace d = false)
    (h : (collapseWS s).head? = some c) : isGoSpace c = false :=
  collapseGo_head_not hs h

theorem collapseWS_getLast_not {s : List Char} {c : Char}
    (hs : ∀ d, s.getLast? = some d → isGoSpace d = false)
    (h : (collapseWS s).getLast? = some c) : isGoSpace c = false :=
  collapseGo_getLast_not s hs false c h

theorem collapseWS_collapsed (s : List Char) : CollapsedP (collapseWS s) :=
  collapseGo_collapsed s false

theorem collapseWS_fix {s : List Char} (h : CollapsedP s) : collapseWS s = s :=
  (collapsed_fix s h).1

theorem collapsedP_take {s : List Char} (h : CollapsedP s) (n : Nat) :
    CollapsedP (s.take n) :=
  ⟨fun c hc => h.1 c (List.mem_of_mem_take hc), h.2.take n⟩

theorem collapsedP_append_dots {s : List Char} (h : CollapsedP s) (u : List Char)
    (hu : ∀ c ∈ u, reSpace c = false)
    (hcu : List.Chain' (fun a b => ¬(reSpace a = true ∧ reSpace b = true)) u) :
    CollapsedP (s ++ u) := by
  refine ⟨?_, ?_⟩
  · intro c hc hrc
    rcases List.mem_append.mp hc with hc1 | hc2
    · exact h.1 c hc1 hrc
    · rw [hu c hc2] at hrc
      exact absurd hrc (by decide)
  · refine List.Chain'.append h.2 hcu ?_
    intro x hx y hy hand
    have h2 := hu y (head?_mem (Option.mem_def.mp hy))
    rw [h2] at hand
    exact absurd hand.2 (by decide)

/-! ### Lemmas on the sentence-end scan -/

theorem findSentEnd_cons (c : Char) (cs : List Char) :
    findSentEnd (c :: cs) =
      if sentPunct c && (cs.isEmpty || reSpace (cs.headD ' ')) then some 0
      else (findSentEnd cs).map (· + 1) := rfl

/-- A match position is inside the text, and the character there (the last
character of the cut prefix) is sentence punctuation. -/
theorem findSentEnd_punct : ∀ (t : List Char) (i : Nat), findSentEnd t = some i →
    i < t.length ∧ ∃ c, (t.take (i + 1)).getLast? = some c ∧ sentPunct c = true := by
  intro t
  induction t with
  | nil => intro i h; simp [findSentEnd] at h
  | cons d ds ih =>
    intro i h
    rw [findSentEnd_cons] at h
    by_cases hcond : (sentPunct d && (ds.isEmpty || reSpace (ds.headD ' '))) = true
    · rw [if_pos hcond] at h
      injection h with h0
      subst h0
      refine ⟨by simp, d, ?_, (by rw [Bool.and_eq_true] at hcond; exact hcond.1)⟩
      rw [List.take_succ_cons, List.take_zero]
      rfl
    · rw [if_neg hcond] at h
      cases hds : findSentEnd ds with
      | none => rw [hds] at h; exact Option.noConfusion h
      | some j =>
        rw [hds] at h
        have hi : i = j + 1 := by
          have h2 : some (j + 1) = some i := h
          injection h2 with h3
          omega
        subst hi
        obtain ⟨hlt, c, hcl, hcp⟩ := ih j hds
        refine ⟨by rw [List.length_cons]; omega, c, ?_, hcp⟩
        rw [List.take_succ_cons]
        have hXne : ds.take (j + 1) ≠ [] := by
          intro h0
          have hl2 := congrArg List.length h0
          rw [List.length_take, List.length_nil] at hl2
          omega
        rw [show (d :: ds.take (j + 1)) = [d] ++ ds.take (j + 1) from rfl,
          getLast?_append_ne_nil hXne]
        exact hcl

/-- Cutting at the match leaves the match in place: the truncated text still
has its first sentence end at the same position. -/
theorem findSentEnd_take : ∀ (t : List Char) (i : Nat), findSentEnd t = some i →
    findSentEnd (t.take (i + 1)) = some i := by
  intro t
  induction t with
  | nil => intro i h; simp [findSentEnd] at h
  | cons d ds ih =>
    intro i h
    rw [findSentEnd_cons] at h
    by_cases hcond : (sentPunct d && (ds.isEmpty || reSpace (ds.headD ' '))) = true
    · rw [if_pos hcond] at h
      injection h with h0
      subst h0
      have hp : sentPunct d = true := by rw [Bool.and_eq_true] at hcond; exact hcond.1
      rw [List.take_succ_cons, List.take_zero, findSentEnd_cons]
      simp [hp]
    · rw [if_neg hcond] at h
      cases hds : findSentEnd ds with
      | none => rw [hds] at h; exact Option.noConfusion h
      | some j =>
        rw [hds] at h
        have hi : i = j + 1 := by
          have h2 : some (j + 1) = some i := h
          injection h2 with h3
          omega
        subst hi
        cases ds with
        | nil => simp [findSentEnd] at hds
        | cons e es =>
          have hih := ih j hds
          rw [List.take_succ_cons, List.take_succ_cons]
          have hc2 : (sentPunct d &&
              ((e :: es.take j).isEmpty || reSpace ((e :: es.take j).headD ' '))) = false := by
            cases hq : (sentPunct d &&
                ((e :: es.take j).isEmpty || reSpace ((e :: es.take j).headD ' '))) with
            | false => rfl
            | true =>
              exfalso
              apply hcond
              simpa using hq
          rw [findSentEnd_cons, if_neg (ne_true_of_eq_false hc2)]
          rw [List.take_succ_cons] at hih
          rw [hih]
          rfl

/-- No match anywhere implies in particular no interior match: no sentence
punctuation immediately followed by a regex space. -/
theorem findSentEnd_none_chain : ∀ (t : List Char), findSentEnd t = none →
    t.Chain' (fun a b => ¬(sentPunct a = true ∧ reSpace b = true)) := by
  intro t
  induction t with
  | nil => intro _; exact List.chain'_nil
  | cons d ds ih =>
    intro h
    rw [findSentEnd_cons] at h
    by_cases hcond : (sentPunct d && (ds.isEmpty || reSpace (ds.headD ' '))) = true
    · rw [if_pos hcond] at h; exact Option.noConfusion h
    · rw [if_neg hcond] at h
      have hds : findSentEnd ds = none := by
        cases hq : findSentEnd ds with
        | none => rfl
        | some j => rw [hq] at h; exact Option.noConfusion (h : some (j + 1) = none)
      rw [List.chain'_cons']
      refine ⟨?_, ih hds⟩
      intro y hy hand
      obtain ⟨h1, h2⟩ := hand
      apply hcond
      have hyd : ds.head? = some y := Option.mem_def.mp hy
      cases ds with
      | nil => exact Option.noConfusion hyd
      | cons e es =>
        rw [List.head?_cons] at hyd
        injection hyd with h3
        subst h3
        simp [h1, h2]

/-- Appending to interior-match-free text whose continuation starts with a
non-space character: the first match of the whole is the first match of the
appended part, shifted. -/
theorem findSentEnd_append_chain : ∀ (t u : List Char) (j : Nat),
    t.Chain' (fun a b => ¬(sentPunct a = true ∧ reSpace b = true)) →
    u ≠ [] → reSpace (u.headD ' ') = false → findSentEnd u = some j →
    findSentEnd (t ++ u) = some (t.length + j) := by
  intro t
  induction t with
  | nil => intro u j _ _ _ hu; simpa using hu
  | cons d ds ih =>
    intro u j hch hne hsp hu
    rw [List.chain'_cons'] at hch
    obtain ⟨hhd, hch2⟩ := hch
    rw [List.cons_append, findSentEnd_cons]
    have hcond2 : (sentPunct d &&
        ((ds ++ u).isEmpty || reSpace ((ds ++ u).headD ' '))) = false := by
      cases hpd : sentPunct d with
      | false => simp [hpd]
      | true =>
        rw [Bool.true_and]
        cases ds with
        | nil =>
          cases u with
          | nil => exact absurd rfl hne
          | cons v vs =>
            rw [List.headD_cons] at hsp
            simp only [List.nil_append, List.isEmpty_cons, Bool.false_or, List.headD_cons]
            exact hsp
        | cons e es =>
          have h1 := hhd e (by simp [Option.mem_def])
          have h2 : reSpace e = false := by
            cases hre : reSpace e with
            | false => rfl
            | true => exact absurd ⟨hpd, hre⟩ h1
          simp only [List.cons_append, List.isEmpty_cons, Bool.false_or, List.headD_cons]
          exact h2
    rw [if_neg (ne_true_of_eq_false hcond2), ih u j hch2 hne hsp hu]
    show some (ds.length + j + 1) = some ((d :: ds).length + j)
    rw [List.length_cons]
    congr 1
    omega

/-- Appending a period to match-free text puts the first match exactly on
that period. -/
theorem findSentEnd_append_dot {t : List Char} (h : findSentEnd t = none) :
    findSentEnd (t ++ ['.']) = some t.length := by
  have h2 := findSentEnd_append_chain t ['.'] 0 (findSentEnd_none_chain t h)
    (by simp) (by decide) (by decide)
  simpa using h2

/-- Truncating match-free text and appending an ellipsis puts the first match
on the last dot of the ellipsis. -/
theorem findSentEnd_trunc {t : List Char} {n : Nat} (h : findSentEnd t = none)
    (hn : n < t.length) : findSentEnd (t.take n ++ str "...") = some (n + 2) := by
  have hch := (findSentEnd_none_chain t h).take n
  have h2 := findSentEnd_append_chain (t.take n) (str "...") 2 hch
    (by decide) (by decide) (by decide)
  rwa [List.length_take, Nat.min_eq_left (Nat.le_of_lt hn)] at h2

/-! ### Idempotence of the first-sentence extraction -/

theorem head?_take_pos {l : List Char} {n : Nat} (hn : 0 < n) :
    (l.take n).head? = l.head? := by
  cases n with
  | zero => omega
  | succ m =>
    cases l with
    | nil => rfl
    | cons a as => rw [List.take_succ_cons, List.head?_cons, List.head?_cons]

theorem head?_append_left {a b : List Char} {c : Char} (h : (a ++ b).head? = some c) :
    a.head? = some c ∨ (a = [] ∧ b.head? = some c) := by
  cases a with
  | nil => right; exact ⟨rfl, by simpa using h⟩
  | cons x xs => left; simpa using h

theorem extractCore_eq_some {t : List Char} {i : Nat} (h : findSentEnd t = some i) :
    extractCore t = trimSpace (t.take (i + 1)) := by
  unfold extractCore
  rw [h]

theorem extractCore_eq_none {t : List Char} (h : findSentEnd t = none) :
    extractCore t =
      if 100 < t.length then t.take 97 ++ str "..."
      else
        if t ≠ [] ∧ ¬t.getLast? = some '.' ∧ ¬t.getLast? = some '!' ∧
            ¬t.getLast? = some '?' then
          t ++ ['.']
        else t := by
  unfold extractCore
  rw [h]

/-- On cleaned-up text (trim and collapse are no-ops), the extraction output
is a fixed point of the full extraction. -/
theorem extractCore_stable {t : List Char}
    (htrim : trimSpace t = t) (hcoll : CollapsedP t)
    (hhead : ∀ c, t.head? = some c → isGoSpace c = false) :
    extractFirstSentence (extractCore t) = extractCore t := by
  cases hfe : findSentEnd t with
  | some i =>
    obtain ⟨hlt, c, hcl, hcp⟩ := findSentEnd_punct t i hfe
    have htk : trimSpace (t.take (i + 1)) = t.take (i + 1) := by
      apply trimSpace_eq_self
      · intro d hd
        rw [head?_take_pos (by omega)] at hd
        exact hhead d hd
      · intro d hd
        rw [hcl] at hd
        injection hd with hd2
        subst hd2
        exact sentPunct_not_space hcp
    have hr : extractCore t = t.take (i + 1) := by
      rw [extractCore_eq_some hfe, htk]
    rw [hr]
    have hne : t.take (i + 1) ≠ [] := by
      intro h0
      have hl2 := congrArg List.length h0
      rw [List.length_take, List.length_nil] at hl2
      omega
    rw [extractFirstSentence, if_neg hne, htk,
      collapseWS_fix (collapsedP_take hcoll (i + 1)),
      extractCore_eq_some (findSentEnd_take t i hfe),
      List.take_take, min_self, htk]
  | none =>
    rw [extractCore_eq_none hfe]
    by_cases hlen : 100 < t.length
    · rw [if_pos hlen]
      have hne : t.take 97 ++ str "..." ≠ [] := by simp [str]
      have hch : CollapsedP (t.take 97 ++ str "...") := by
        apply collapsedP_append_dots (collapsedP_take hcoll 97)
        · intro c hc
          have hc2 : c = '.' := by simpa [str] using hc
          subst hc2
          decide
        · refine List.chain'_cons.mpr ⟨?_, List.chain'_cons.mpr ⟨?_, List.chain'_singleton _⟩⟩ <;>
            (intro hand; exact absurd hand.1 (by decide))
      have htr : trimSpace (t.take 97 ++ str "...") = t.take 97 ++ str "..." := by
        apply trimSpace_eq_self
        · intro d hd
          rcases head?_append_left hd with h1 | ⟨h1, h2⟩
          · rw [head?_take_pos (by decide)] at h1
            exact hhead d h1
          · exfalso
            have hl2 := congrArg List.length h1
            rw [List.length_take, List.length_nil] at hl2
            omega
        · intro d hd
          rw [getLast?_append_ne_nil (by decide : str "..." ≠ [])] at hd
          have hd2 : some '.' = some d := hd
          injection hd2 with hd3
          rw [← hd3]
          decide
      have hrlen : (t.take 97 ++ str "...").length = 100 := by
        rw [List.length_append, List.length_take]
        have hlenstr : (str "...").length = 3 := rfl
        rw [hlenstr]
        omega
      rw [extractFirstSentence, if_neg hne, htr, collapseWS_fix hch,
        extractCore_eq_some (findSentEnd_trunc hfe (by omega)),
        show (97 + 2 + 1) = 100 from rfl,
        List.take_of_length_le hrlen.le, htr]
    · rw [if_neg hlen]
      by_cases hcnd : (t ≠ [] ∧ ¬t.getLast? = some '.' ∧ ¬t.getLast? = some '!' ∧
          ¬t.getLast? = some '?')
      · rw [if_pos hcnd]
        obtain ⟨htne, -, -, -⟩ := hcnd
        have hne2 : t ++ ['.'] ≠ [] := by simp
        have hch : CollapsedP (t ++ ['.']) := by
          apply collapsedP_append_dots hcoll
          · intro c hc
            have hc2 : c = '.' := by simpa using hc
            subst hc2
            decide
          · exact List.chain'_singleton _
        have htr : trimSpace (t ++ ['.']) = t ++ ['.'] := by
          apply trimSpace_eq_self
          · intro d hd
            rcases head?_append_left hd with h1 | ⟨h1, h2⟩
            · exact hhead d h1
            · exact absurd h1 htne
          · intro d hd
            rw [getLast?_append_ne_nil (by simp : (['.'] : List Char) ≠ [])] at hd
            have hd2 : some '.' = some d := hd
            injection hd2 with hd3
            rw [← hd3]
            decide
        have hlen2 : (t ++ ['.']).length = t.length + 1 := by simp
        rw [extractFirstSentence, if_neg hne2, htr, collapseWS_fix hch,
          extractCore_eq_some (findSentEnd_append_dot hfe),
          List.take_of_length_le hlen2.le, htr]
      · rw [if_neg hcnd]
        by_cases ht0 : t = []
        · rw [extractFirstSentence, if_pos ht0, ht0]
        · rw [extractFirstSentence, if_neg ht0, htrim, collapseWS_fix hcoll,
            extractCore_eq_none hfe, if_neg hlen, if_neg hcnd]

/-- Claim C4: short-description extraction is idempotent — for every string
x, extractFirstSentence (extractFirstSentence x) equals
extractFirstSentence x, including the truncation-with-ellipsis case for
texts with no sentence terminator and the appended-period case. -/
theorem c4_extract_idempotent (x : List Char) :
    extractFirstSentence (extractFirstSentence x) = extractFirstSentence x := by
  by_cases hx : x = []
  · subst hx; rfl
  · have hhead : ∀ c, (collapseWS (trimSpace x)).head? = some c → isGoSpace c = false :=
      fun c hc => collapseWS_head_not (fun d hd => trimSpace_head_not hd) hc
    have hlast : ∀ c, (collapseWS (trimSpace x)).getLast? = some c → isGoSpace c = false :=
      fun c hc => collapseWS_getLast_not (fun d hd => trimSpace_getLast_not hd) hc
    have h1 : extractFirstSentence x = extractCore (collapseWS (trimSpace x)) := by
      rw [extractFirstSentence, if_neg hx]
    rw [h1]
    exact extractCore_stable (trimSpace_eq_self hhead hlast)
      (collapseWS_collapsed _) hhead

/-! ### Character arithmetic for the key normalizer -/

theorem toNat_ofNat_valid (n : Nat) (h : n.isValidChar) : (Char.ofNat n).toNat = n := by
  rw [Char.ofNat, dif_pos h, Char.ofNatAux, Char.toNat]
  rfl

theorem charLe_of_toNat {a b : Char} (h : a.toNat ≤ b.toNat) : a ≤ b := by
  rw [Char.le_def, UInt32.le_def, BitVec.le_def]
  exact h

theorem char_ne_of_toNat {a b : Char} (h : a.toNat ≠ b.toNat) : a ≠ b := by
  intro h2
  exact h (congrArg Char.toNat h2)

theorem upperAscii_toNat_lower {c : Char} (h1 : 97 ≤ c.toNat) (h2 : c.toNat ≤ 122) :
    (upperAscii c).toNat = c.toNat - 32 := by
  rw [upperAscii, if_pos (by
    simp only [Bool.and_eq_true, decide_eq_true_eq]
    exact ⟨charLe_of_toNat h1, charLe_of_toNat h2⟩)]
  exact toNat_ofNat_valid _ (Or.inl (by omega))

theorem upperAscii_eq_self {c : Char} (h : ¬(97 ≤ c.toNat ∧ c.toNat ≤ 122)) :
    upperAscii c = c := by
  rw [upperAscii, if_neg]
  intro hcond
  simp only [Bool.and_eq_true, decide_eq_true_eq] at hcond
  exact h ⟨charLe_toNat hcond.1, charLe_toNat hcond.2⟩

theorem lowerAscii_toNat_upper {c : Char} (h1 : 65 ≤ c.toNat) (h2 : c.toNat ≤ 90) :
    (lowerAscii c).toNat = c.toNat + 32 := by
  rw [lowerAscii, if_pos (by
    simp only [Bool.and_eq_true, decide_eq_true_eq]
    exact ⟨charLe_of_toNat h1, charLe_of_toNat h2⟩)]
  exact toNat_ofNat_valid _ (Or.inl (by omega))

theorem lowerAscii_eq_self {c : Char} (h : ¬(65 ≤ c.toNat ∧ c.toNat ≤ 90)) :
    lowerAscii c = c := by
  rw [lowerAscii, if_neg]
  intro hcond
  simp only [Bool.and_eq_true, decide_eq_true_eq] at hcond
  exact h ⟨charLe_toNat hcond.1, charLe_toNat hcond.2⟩

theorem not_space_of_range {c : Char} (h1 : 33 ≤ c.toNat) (h2 : c.toNat ≤ 132) :
    isGoSpace c = false := by
  cases hq : isGoSpace c with
  | false => rfl
  | true =>
    have := isGoSpace_range hq
    omega

theorem isSingleLower_eq {c : Char} :
    isSingleLower [c] = ('a' ≤ c && c ≤ 'z') := rfl

theorem not_single_lower {c : Char} (h : ¬(97 ≤ c.toNat ∧ c.toNat ≤ 122)) :
    isSingleLower [c] = false := by
  rw [isSingleLower_eq]
  cases h1 : ('a' ≤ c : Bool) with
  | false => rw [Bool.false_and]
  | true =>
    cases h2 : (c ≤ 'z' : Bool) with
    | false => rw [Bool.and_false]
    | true =>
      exfalso
      exact h ⟨charLe_toNat (of_decide_eq_true h1), charLe_toNat (of_decide_eq_true h2)⟩

/-! ### Dispatch equations of the key normalizer -/

theorem dispatchKey_nil : dispatchKey [] = genPath [] := rfl

theorem dispatchKey_one (a : Char) : dispatchKey [a] = genPath [a] := by
  unfold dispatchKey
  split
  · simp_all
  · simp_all
  · rfl

theorem dispatchKey_caret (c : Char) : dispatchKey ['^', c] =
    (if classChar c then caretResult (upperAscii c) else genPath ['^', c]) := by
  unfold dispatchKey
  split
  · simp_all
  · simp_all
  · simp_all

theorem dispatchKey_two (a b : Char) (h : a ≠ '^') : dispatchKey [a, b] = genPath [a, b] := by
  unfold dispatchKey
  split
  · simp_all
  · simp_all
  · rfl

theorem dispatchKey_dash (a c : Char) : dispatchKey [a, '-', c] =
    (if (a = 'C' || a = 'c') && classChar c then str "Ctrl+" ++ [upperAscii c]
     else if (a = 'M' || a = 'm') && letterChar c then str "Alt+" ++ [upperAscii c]
     else genPath [a, '-', c]) := by
  unfold dispatchKey
  split
  · simp_all
  · simp_all
  · simp_all

theorem dispatchKey_three (a b c : Char) (h : b ≠ '-') :
    dispatchKey [a, b, c] = genPath [a, b, c] := by
  unfold dispatchKey
  split
  · simp_all
  · simp_all
  · rfl

theorem dispatchKey_big (a b c d : Char) (r : List Char) :
    dispatchKey (a :: b :: c :: d :: r) = genPath (a :: b :: c :: d :: r) := by
  unfold dispatchKey
  split
  · simp_all
  · simp_all
  · rfl

/-! ### The replace scan: fuel elimination and first-match decomposition -/

theorem bool_eq_false {b : Bool} (h : ¬b = true) : b = false := by
  cases b with
  | false => rfl
  | true => exact absurd rfl h

theorem replFuel_eq_replaceCI (pat rep : List Char) :
    ∀ (fuel : Nat) (s : List Char), s.length ≤ fuel →
      replFuel pat rep fuel s = replaceCI pat rep s := by
  intro fuel
  induction fuel using Nat.strong_induction_on with
  | _ fuel ih =>
    intro s hs
    cases s with
    | nil => cases fuel <;> rfl
    | cons c cs =>
      cases fuel with
      | zero => simp at hs
      | succ f =>
        rw [show replFuel pat rep (f + 1) (c :: cs) =
          (if matchesCI pat (c :: cs) then
            rep ++ replFuel pat rep f (cs.drop (pat.length - 1))
          else c :: replFuel pat rep f cs) from rfl]
        rw [replaceCI]
        rw [show (c :: cs).length = cs.length + 1 from rfl]
        rw [show replFuel pat rep (cs.length + 1) (c :: cs) =
          (if matchesCI pat (c :: cs) then
            rep ++ replFuel pat rep cs.length (cs.drop (pat.length - 1))
          else c :: replFuel pat rep cs.length cs) from rfl]
        rw [List.length_cons] at hs
        have hd : (cs.drop (pat.length - 1)).length ≤ cs.length :=
          (List.drop_sublist _ _).length_le
        rw [ih f (by omega) (cs.drop (pat.length - 1)) (by omega),
          ih f (by omega) cs (by omega),
          ih cs.length (by omega) (cs.drop (pat.length - 1)) (by omega),
          ih cs.length (by omega) cs (by omega)]

theorem replaceCI_nil (pat rep : List Char) : replaceCI pat rep [] = [] := rfl

theorem replaceCI_cons (pat rep : List Char) (c : Char) (cs : List Char) :
    replaceCI pat rep (c :: cs) =
      if matchesCI pat (c :: cs) then
        rep ++ replaceCI pat rep (cs.drop (pat.length - 1))
      else c :: replaceCI pat rep cs := by
  rw [replaceCI]
  rw [show (c :: cs).length = cs.length + 1 from rfl]
  rw [show replFuel pat rep (cs.length + 1) (c :: cs) =
    (if matchesCI pat (c :: cs) then
      rep ++ replFuel pat rep cs.length (cs.drop (pat.length - 1))
    else c :: replFuel pat rep cs.length cs) from rfl]
  rw [replFuel_eq_replaceCI pat rep cs.length (cs.drop (pat.length - 1))
      (List.drop_sublist _ _).length_le,
    replFuel_eq_replaceCI pat rep cs.length cs le_rfl]

theorem matchesCI_length : ∀ (p s : List Char), matchesCI p s = true → p.length ≤ s.length := by
  intro p
  induction p with
  | nil => intro s _; simp
  | cons x ps ih =>
    intro s h
    cases s with
    | nil => exact absurd h (by rw [matchesCI]; decide)
    | cons c cs =>
      rw [matchesCI, Bool.and_eq_true] at h
      have := ih cs h.2
      rw [List.length_cons, List.length_cons]
      omega

theorem matchesCI_append_left : ∀ (p u v : List Char), p.length ≤ u.length →
    matchesCI p (u ++ v) = matchesCI p u := by
  intro p
  induction p with
  | nil => intro u v _; rfl
  | cons x ps ih =>
    intro u v h
    cases u with
    | nil => simp at h
    | cons c cs =>
      rw [List.cons_append, matchesCI, matchesCI, ih cs v (by
        rw [List.length_cons, List.length_cons] at h; omega)]

theorem matchesCI_drop_append : ∀ (u p v : List Char), u.length < p.length →
    matchesCI p (u ++ v) = true → matchesCI (p.drop u.length) v = true := by
  intro u
  induction u with
  | nil => intro p v _ h; simpa using h
  | cons c cs ih =>
    intro p v hlen h
    cases p with
    | nil => simp at hlen
    | cons x ps =>
      rw [List.cons_append, matchesCI, Bool.and_eq_true] at h
      rw [List.length_cons, List.drop_succ_cons]
      exact ih ps v (by rw [List.length_cons, List.length_cons] at hlen; omega) h.2

theorem matchesCI_take : ∀ (u p v : List Char),
    matchesCI p (u ++ v) = true → matchesCI (p.take u.length) u = true := by
  intro u
  induction u with
  | nil => intro p v _; rfl
  | cons c cs ih =>
    intro p v h
    cases p with
    | nil => rfl
    | cons x ps =>
      rw [List.cons_append, matchesCI, Bool.and_eq_true] at h
      rw [List.length_cons, List.take_succ_cons, matchesCI, Bool.and_eq_true]
      exact ⟨h.1, ih ps v h.2⟩

theorem matchesCI_of_take {p s : List Char} {n : Nat}
    (h : matchesCI p (s.take n) = true) : matchesCI p s = true := by
  have hl := matchesCI_length p (s.take n) h
  rw [← List.take_append_drop n s, matchesCI_append_left p _ _ hl]
  exact h

/-- First-match decomposition of the case-insensitive replace scan. -/
theorem replace_split (pat rep : List Char) (hp : pat ≠ []) : ∀ s : List Char,
    ((∀ i, matchesCI pat (s.drop i) = false) ∧ replaceCI pat rep s = s) ∨
    (∃ k, (∀ j, j < k → matchesCI pat (s.drop j) = false) ∧
      matchesCI pat (s.drop k) = true ∧
      replaceCI pat rep s =
        s.take k ++ rep ++ replaceCI pat rep (s.drop (k + pat.length))) := by
  intro s
  induction s with
  | nil =>
    left
    constructor
    · intro i
      rw [List.drop_nil]
      cases pat with
      | nil => exact absurd rfl hp
      | cons x ps => rfl
    · rfl
  | cons c cs ih =>
    obtain ⟨L', hL'⟩ : ∃ L', pat.length = L' + 1 := by
      cases pat with
      | nil => exact absurd rfl hp
      | cons x ps => exact ⟨ps.length, by simp⟩
    by_cases hm : matchesCI pat (c :: cs) = true
    · right
      refine ⟨0, fun j hj => absurd hj (Nat.not_lt_zero j), by simpa using hm, ?_⟩
      rw [replaceCI_cons, if_pos hm, List.take_zero, List.nil_append, Nat.zero_add,
        hL', List.drop_succ_cons, show L' + 1 - 1 = L' from rfl]
    · rcases ih with ⟨hno, heq⟩ | ⟨k, hmin, hk, heq⟩
      · left
        constructor
        · intro i
          match i with
          | 0 => exact bool_eq_false hm
          | i + 1 => rw [List.drop_succ_cons]; exact hno i
        · rw [replaceCI_cons, if_neg hm, heq]
      · right
        refine ⟨k + 1, ?_, by rwa [List.drop_succ_cons], ?_⟩
        · intro j hj
          match j with
          | 0 => exact bool_eq_false hm
          | j + 1 => rw [List.drop_succ_cons]; exact hmin j (by omega)
        · rw [replaceCI_cons, if_neg hm, heq, List.take_succ_cons,
            show k + 1 + pat.length = (k + pat.length) + 1 from by omega,
            List.drop_succ_cons, List.cons_append, List.cons_append]

/-! ### Occurrence predicates for the modifier patterns -/

theorem drop_append_le {a b : List Char} {i : Nat} (h : i ≤ a.length) :
    (a ++ b).drop i = a.drop i ++ b := by
  rw [List.drop_append_eq_append_drop, show i - a.length = 0 from by omega, List.drop_zero]

theorem drop_append_ge {a b : List Char} {i : Nat} (h : a.length ≤ i) :
    (a ++ b).drop i = b.drop (i - a.length) := by
  rw [List.drop_append_eq_append_drop, List.drop_eq_nil_of_le h, List.nil_append]

theorem take_append_le {a b : List Char} {n : Nat} (h : n ≤ a.length) :
    (a ++ b).take n = a.take n := by
  rw [List.take_append_eq_append_take, show n - a.length = 0 from by omega, List.take_zero,
    List.append_nil]

/-- No case-insensitive occurrence of `q` anywhere in `s`. -/
def NoOcc (q s : List Char) : Prop := ∀ i, matchesCI q (s.drop i) = false

/-- Every case-insensitive occurrence of `q` in `s` reads literally `lit`. -/
def AllLit (q lit s : List Char) : Prop :=
  ∀ i, matchesCI q (s.drop i) = true → (s.drop i).take q.length = lit

theorem noOcc_drop {q s : List Char} (h : NoOcc q s) (k : Nat) : NoOcc q (s.drop k) := by
  intro i
  rw [List.drop_drop]
  exact h (k + i)

theorem allLit_drop {q lit s : List Char} (h : AllLit q lit s) (k : Nat) :
    AllLit q lit (s.drop k) := by
  intro i
  rw [List.drop_drop]
  exact h (k + i)

theorem replace_fix_of_noOcc (pat rep : List Char) (hp : pat ≠ []) (s : List Char)
    (h : NoOcc pat s) : replaceCI pat rep s = s := by
  rcases replace_split pat rep hp s with ⟨_, heq⟩ | ⟨k, _, hk, _⟩
  · exact heq
  · rw [h k] at hk
    exact absurd hk (by decide)

/-- When every occurrence of the pattern already reads as the replacement and
both have the same length, the replace scan is the identity. -/
theorem replace_fix_of_allLit (pat rep : List Char) (hp : pat ≠ [])
    (hlen : rep.length = pat.length) : ∀ s, AllLit pat rep s → replaceCI pat rep s = s := by
  refine listStrongLen ?_
  intro s ihs hA
  rcases replace_split pat rep hp s with ⟨_, heq⟩ | ⟨k, _, hk, heq⟩
  · exact heq
  · have hpl : 0 < pat.length := by
      cases pat with
      | nil => exact absurd rfl hp
      | cons x ps => simp
    have hkL : pat.length ≤ s.length - k := by
      have := matchesCI_length pat _ hk
      rwa [List.length_drop] at this
    have hkl : k < s.length := by omega
    have hlit := hA k hk
    have hrec := ihs (s.drop (k + pat.length)) (by
      rw [List.length_drop]
      omega) (allLit_drop hA (k + pat.length))
    rw [heq, hrec, ← hlit,
      show s.drop (k + pat.length) = (s.drop k).drop pat.length from by
        rw [List.drop_drop],
      List.append_assoc, List.take_append_drop, List.take_append_drop]

/-- No suffix of `q` can start reading into a replacement block. -/
def spanOKb (q rep : List Char) : Bool :=
  (List.range q.length).all
    (fun j => decide (j = 0) || !(matchesCI ((q.drop j).take rep.length) rep))

/-- `q` cannot start reading at or inside a replacement block at all. -/
def blockNoneOKb (q rep : List Char) : Bool :=
  (List.range rep.length).all
    (fun i => !(matchesCI (q.take (rep.length - i)) (rep.drop i)))

/-- `q` can start reading at a replacement block only exactly at its start. -/
def blockStartOKb (q rep : List Char) : Bool :=
  (List.range rep.length).all
    (fun i => decide (i = 0) || !(matchesCI (q.take (rep.length - i)) (rep.drop i)))

theorem spanOK_spec {q rep : List Char} (h : spanOKb q rep = true) :
    ∀ j, 0 < j → j < q.length → matchesCI ((q.drop j).take rep.length) rep = false := by
  intro j h1 h2
  have := List.all_eq_true.mp h j (List.mem_range.mpr h2)
  simp only [Bool.or_eq_true, decide_eq_true_eq, Bool.not_eq_true'] at this
  rcases this with h0 | h0
  · omega
  · exact h0

theorem blockNoneOK_spec {q rep : List Char} (h : blockNoneOKb q rep = true) :
    ∀ i, i < rep.length → matchesCI (q.take (rep.length - i)) (rep.drop i) = false := by
  intro i h2
  have := List.all_eq_true.mp h i (List.mem_range.mpr h2)
  simpa only [Bool.not_eq_true'] using this

theorem blockStartOK_spec {q rep : List Char} (h : blockStartOKb q rep = true) :
    ∀ i, 0 < i → i < rep.length → matchesCI (q.take (rep.length - i)) (rep.drop i) = false := by
  intro i h1 h2
  have := List.all_eq_true.mp h i (List.mem_range.mpr h2)
  simp only [Bool.or_eq_true, decide_eq_true_eq, Bool.not_eq_true'] at this
  rcases this with h0 | h0
  · omega
  · exact h0

/-- If `q` can start reading exactly at a replacement block, the block is a
full literal occurrence. -/
def blockLitOKb (q lit rep : List Char) : Bool :=
  !(matchesCI (q.take rep.length) rep) ||
  (decide (q.length ≤ rep.length) && decide (rep.take q.length = lit))

theorem blockLitOK_spec {q lit rep : List Char} (h : blockLitOKb q lit rep = true)
    (hm : matchesCI (q.take rep.length) rep = true) :
    q.length ≤ rep.length ∧ rep.take q.length = lit := by
  rw [blockLitOKb, Bool.or_eq_true, Bool.not_eq_true', Bool.and_eq_true,
    decide_eq_true_eq, decide_eq_true_eq] at h
  rcases h with h0 | h0
  · rw [hm] at h0
    exact absurd h0 (by decide)
  · exact h0

/-- A replace pass preserves the literal-occurrence invariant of a probe
pattern `q` that cannot read across into or start inside the pass's
replacement blocks. -/
theorem allLit_replace (q lit pat rep : List Char) (hp : pat ≠ [])
    (hspan : spanOKb q rep = true) (hbs : blockStartOKb q rep = true)
    (hbl : blockLitOKb q lit rep = true) :
    ∀ s, AllLit q lit s → AllLit q lit (replaceCI pat rep s) := by
  refine listStrongLen ?_
  intro s ihs hA
  rcases replace_split pat rep hp s with ⟨_, heq⟩ | ⟨k, hmin, hk, heq⟩
  · rwa [heq]
  · have hpl : 0 < pat.length := by
      cases pat with
      | nil => exact absurd rfl hp
      | cons x ps => simp
    have hkL : pat.length ≤ s.length - k := by
      have := matchesCI_length pat _ hk
      rwa [List.length_drop] at this
    have hkl : k < s.length := by omega
    rw [heq]
    intro i hi
    have hkA : (s.take k).length = k := by rw [List.length_take]; omega
    rw [List.append_assoc] at hi ⊢
    by_cases h1 : i + q.length ≤ k
    · rw [drop_append_le (by omega : i ≤ (s.take k).length)] at hi ⊢
      have hlen2 : q.length ≤ ((s.take k).drop i).length := by
        rw [List.length_drop, hkA]
        omega
      rw [matchesCI_append_left q _ _ hlen2] at hi
      rw [take_append_le hlen2]
      rw [List.drop_take] at hi ⊢
      have hsi := matchesCI_of_take hi
      have hres := hA i hsi
      rw [List.take_take, show q.length ⊓ (k - i) = q.length from by omega]
      exact hres
    · by_cases h2 : i < k
      · exfalso
        rw [drop_append_le (by omega : i ≤ (s.take k).length)] at hi
        have hlen2 : ((s.take k).drop i).length < q.length := by
          rw [List.length_drop, hkA]
          omega
        have h3 := matchesCI_drop_append _ _ _ hlen2 hi
        rw [List.length_drop, hkA] at h3
        have h4 := matchesCI_take rep _ _ h3
        have h5 := spanOK_spec hspan (k - i) (by omega) (by omega)
        rw [h5] at h4
        exact absurd h4 (by decide)
      · by_cases h3 : i < k + rep.length
        · by_cases h4 : i = k
          · subst h4
            rw [drop_append_ge (by rw [hkA]), hkA, Nat.sub_self, List.drop_zero] at hi ⊢
            have h5 := matchesCI_take rep _ _ hi
            obtain ⟨h6, h7⟩ := blockLitOK_spec hbl h5
            rw [take_append_le h6, h7]
          · exfalso
            rw [drop_append_ge (by rw [hkA]; omega), hkA,
              drop_append_le (by omega : i - k ≤ rep.length)] at hi
            have h5 := matchesCI_take (rep.drop (i - k)) _ _ hi
            rw [List.length_drop] at h5
            have h6 := blockStartOK_spec hbs (i - k) (by omega) (by omega)
            rw [h6] at h5
            exact absurd h5 (by decide)
        · rw [drop_append_ge (by rw [hkA]; omega), hkA,
            drop_append_ge (by omega : rep.length ≤ i - k)] at hi ⊢
          have hrec : AllLit q lit (replaceCI pat rep (s.drop (k + pat.length))) :=
            ihs (s.drop (k + pat.length)) (by rw [List.length_drop]; omega)
              (allLit_drop hA _)
          exact hrec _ hi

/-- A same-length canonicalizing pass makes all of its own occurrences
literally equal to the replacement. -/
theorem allLit_replace_own (pat rep : List Char) (hp : pat ≠ [])
    (hlen : rep.length = pat.length)
    (hspan : spanOKb pat rep = true) (hblock : blockStartOKb pat rep = true) :
    ∀ s, AllLit pat rep (replaceCI pat rep s) := by
  refine listStrongLen ?_
  intro s ihs
  rcases replace_split pat rep hp s with ⟨hno, heq⟩ | ⟨k, hmin, hk, heq⟩
  · rw [heq]
    intro i hi
    rw [hno i] at hi
    exact absurd hi (by decide)
  · have hpl : 0 < pat.length := by
      cases pat with
      | nil => exact absurd rfl hp
      | cons x ps => simp
    have hkL : pat.length ≤ s.length - k := by
      have := matchesCI_length pat _ hk
      rwa [List.length_drop] at this
    have hkl : k < s.length := by omega
    rw [heq]
    intro i hi
    have hkA : (s.take k).length = k := by rw [List.length_take]; omega
    rw [List.append_assoc] at hi ⊢
    by_cases h1 : i + pat.length ≤ k
    · exfalso
      rw [drop_append_le (by omega : i ≤ (s.take k).length)] at hi
      have hlen2 : pat.length ≤ ((s.take k).drop i).length := by
        rw [List.length_drop, hkA]
        omega
      rw [matchesCI_append_left pat _ _ hlen2] at hi
      rw [List.drop_take] at hi
      have hsi := matchesCI_of_take hi
      rw [hmin i (by omega)] at hsi
      exact absurd hsi (by decide)
    · by_cases h2 : i < k
      · exfalso
        rw [drop_append_le (by omega : i ≤ (s.take k).length)] at hi
        have hlen2 : ((s.take k).drop i).length < pat.length := by
          rw [List.length_drop, hkA]
          omega
        have h3 := matchesCI_drop_append _ _ _ hlen2 hi
        rw [List.length_drop, hkA] at h3
        have h4 := matchesCI_take rep _ _ h3
        have h5 := spanOK_spec hspan (k - i) (by omega) (by omega)
        rw [h5] at h4
        exact absurd h4 (by decide)
      · by_cases h3 : i < k + rep.length
        · by_cases h4 : i = k
          · subst h4
            rw [drop_append_ge (by rw [hkA]), hkA, Nat.sub_self, List.drop_zero] at hi ⊢
            rw [take_append_le (by omega : pat.length ≤ rep.length),
              List.take_of_length_le (by omega : rep.length ≤ pat.length)]
          · exfalso
            rw [drop_append_ge (by rw [hkA]; omega), hkA,
              drop_append_le (by omega : i - k ≤ rep.length)] at hi
            have h5 := matchesCI_take (rep.drop (i - k)) _ _ hi
            rw [List.length_drop] at h5
            have h6 := blockStartOK_spec hblock (i - k) (by omega) (by omega)
            rw [h6] at h5
            exact absurd h5 (by decide)
        · rw [drop_append_ge (by rw [hkA]; omega), hkA,
            drop_append_ge (by omega : rep.length ≤ i - k)] at hi ⊢
          have hrec : AllLit pat rep (replaceCI pat rep (s.drop (k + pat.length))) :=
            ihs (s.drop (k + pat.length)) (by rw [List.length_drop]; omega)
          exact hrec _ hi

/-- A pass whose own pattern cannot read at, into or across its replacement
blocks erases all occurrences of that pattern. -/
theorem noOcc_replace_own (pat rep : List Char) (hp : pat ≠ [])
    (hspan : spanOKb pat rep = true) (hblock : blockNoneOKb pat rep = true) :
    ∀ s, NoOcc pat (replaceCI pat rep s) := by
  refine listStrongLen ?_
  intro s ihs
  rcases replace_split pat rep hp s with ⟨hno, heq⟩ | ⟨k, hmin, hk, heq⟩
  · rw [heq]
    exact hno
  · have hpl : 0 < pat.length := by
      cases pat with
      | nil => exact absurd rfl hp
      | cons x ps => simp
    have hkL : pat.length ≤ s.length - k := by
      have := matchesCI_length pat _ hk
      rwa [List.length_drop] at this
    have hkl : k < s.length := by omega
    rw [heq]
    intro i
    cases hcon : matchesCI pat
        (((s.take k ++ rep) ++ replaceCI pat rep (s.drop (k + pat.length))).drop i) with
    | false => rfl
    | true =>
      exfalso
      have hi := hcon
      have hkA : (s.take k).length = k := by rw [List.length_take]; omega
      rw [List.append_assoc] at hi
      by_cases h1 : i + pat.length ≤ k
      · rw [drop_append_le (by omega : i ≤ (s.take k).length)] at hi
        have hlen2 : pat.length ≤ ((s.take k).drop i).length := by
          rw [List.length_drop, hkA]
          omega
        rw [matchesCI_append_left pat _ _ hlen2] at hi
        rw [List.drop_take] at hi
        have hsi := matchesCI_of_take hi
        rw [hmin i (by omega)] at hsi
        exact absurd hsi (by decide)
      · by_cases h2 : i < k
        · rw [drop_append_le (by omega : i ≤ (s.take k).length)] at hi
          have hlen2 : ((s.take k).drop i).length < pat.length := by
            rw [List.length_drop, hkA]
            omega
          have h3 := matchesCI_drop_append _ _ _ hlen2 hi
          rw [List.length_drop, hkA] at h3
          have h4 := matchesCI_take rep _ _ h3
          have h5 := spanOK_spec hspan (k - i) (by omega) (by omega)
          rw [h5] at h4
          exact absurd h4 (by decide)
        · by_cases h3 : i < k + rep.length
          · rw [drop_append_ge (by rw [hkA]; omega), hkA,
              drop_append_le (by omega : i - k ≤ rep.length)] at hi
            have h4 := matchesCI_take (rep.drop (i - k)) _ _ hi
            rw [List.length_drop] at h4
            have h5 := blockNoneOK_spec hblock (i - k) (by omega)
            rw [h5] at h4
            exact absurd h4 (by decide)
          · rw [drop_append_ge (by rw [hkA]; omega), hkA,
              drop_append_ge (by omega : rep.length ≤ i - k)] at hi
            have hrec : NoOcc pat (replaceCI pat rep (s.drop (k + pat.length))) :=
              ihs (s.drop (k + pat.length)) (by rw [List.length_drop]; omega)
            rw [hrec _] at hi
            exact absurd hi (by decide)

/-! ### The split-adjust-join step of the general path -/

theorem splitPlus_ne_nil : ∀ s : List Char, splitPlus s ≠ [] := by
  intro s
  cases s with
  | nil => simp [splitPlus]
  | cons c rest =>
    rw [splitPlus]
    by_cases hc : c = '+'
    · rw [if_pos hc]
      simp
    · rw [if_neg hc]
      cases hs : splitPlus rest <;> simp

theorem splitPlus_no_plus : ∀ s : List Char, '+' ∉ s → splitPlus s = [s] := by
  intro s
  induction s with
  | nil => intro _; rfl
  | cons c rest ih =>
    intro h
    rw [splitPlus, if_neg (fun hc => h (by rw [← hc]; exact List.mem_cons_self c rest)),
      ih (fun hm => h (List.mem_cons_of_mem c hm))]

theorem splitPlus_append_plus : ∀ (u v : List Char), '+' ∉ v →
    splitPlus (u ++ '+' :: v) = splitPlus u ++ [v] := by
  intro u
  induction u with
  | nil =>
    intro v hv
    rw [List.nil_append,
      show splitPlus ('+' :: v) = [] :: splitPlus v from by rw [splitPlus, if_pos rfl],
      splitPlus_no_plus v hv]
    rfl
  | cons c u' ih =>
    intro v hv
    rw [List.cons_append, splitPlus, splitPlus]
    by_cases hc : c = '+'
    · rw [if_pos hc, if_pos hc, ih v hv, List.cons_append]
    · rw [if_neg hc, if_neg hc, ih v hv]
      cases hs : splitPlus u' with
      | nil => exact absurd hs (splitPlus_ne_nil u')
      | cons p ps => rw [List.cons_append, List.cons_append]

theorem joinPlus_cons_ne_nil (p : List Char) (ps : List (List Char)) (h : ps ≠ []) :
    joinPlus (p :: ps) = p ++ '+' :: joinPlus ps := by
  cases ps with
  | nil => exact absurd rfl h
  | cons x xs => rfl

theorem adjustInit_append : ∀ (P : List (List Char)) (v : List Char),
    adjustInit (P ++ [v]) = P ++ [adjustLast v] := by
  intro P
  induction P with
  | nil => intro v; rfl
  | cons p P' ih =>
    intro v
    cases P' with
    | nil => rfl
    | cons x P'' =>
      rw [List.cons_append, show adjustInit (p :: ((x :: P'') ++ [v])) =
        p :: adjustInit ((x :: P'') ++ [v]) from by
          rw [List.cons_append]; rfl, ih v]
      simp

theorem joinPlus_split : ∀ (u w : List Char),
    joinPlus (splitPlus u ++ [w]) = u ++ '+' :: w := by
  intro u
  induction u with
  | nil => intro w; rfl
  | cons c u' ih =>
    intro w
    rw [splitPlus]
    by_cases hc : c = '+'
    · subst hc
      rw [if_pos rfl, List.cons_append,
        joinPlus_cons_ne_nil [] (splitPlus u' ++ [w]) (by simp),
        ih w, List.nil_append, List.cons_append]
    · rw [if_neg hc]
      cases hs : splitPlus u' with
      | nil => exact absurd hs (splitPlus_ne_nil u')
      | cons p ps =>
        have hih := ih w
        rw [hs, List.cons_append, joinPlus_cons_ne_nil p (ps ++ [w]) (by simp)] at hih
        show joinPlus (((c :: p) :: ps) ++ [w]) = (c :: u') ++ '+' :: w
        rw [List.cons_append, joinPlus_cons_ne_nil (c :: p) (ps ++ [w]) (by simp),
          List.cons_append, List.cons_append, hih]

theorem last_plus_decomp {s : List Char} (h : '+' ∈ s) :
    ∃ u v, s = u ++ '+' :: v ∧ '+' ∉ v := by
  induction s with
  | nil => exact absurd h (List.not_mem_nil '+')
  | cons c rest ih =>
    by_cases hr : '+' ∈ rest
    · obtain ⟨u, v, heq, hv⟩ := ih hr
      exact ⟨c :: u, v, by rw [heq, List.cons_append], hv⟩
    · rcases List.mem_cons.mp h with hc | hc
      · exact ⟨[], rest, by rw [← hc, List.nil_append], hr⟩
      · exact absurd hc hr

theorem genAdjust_no_plus {s : List Char} (h : '+' ∉ s) : genAdjust s = s := by
  rw [genAdjust, splitPlus_no_plus s h]

theorem genAdjust_plus (u v : List Char) (hv : '+' ∉ v) :
    genAdjust (u ++ '+' :: v) = u ++ '+' :: adjustLast v := by
  rw [genAdjust, splitPlus_append_plus u v hv]
  have key : joinPlus (adjustInit (splitPlus u ++ [v])) = u ++ '+' :: adjustLast v := by
    rw [adjustInit_append, joinPlus_split]
  cases hs : splitPlus u with
  | nil => exact absurd hs (splitPlus_ne_nil u)
  | cons p ps =>
    rw [hs] at key
    cases ps with
    | nil => exact key
    | cons x xs => exact key

/-! ### Properties of the last-part adjustment -/

theorem isSingleLower_shape {v : List Char} (h : isSingleLower v = true) :
    ∃ c, v = [c] ∧ 97 ≤ c.toNat ∧ c.toNat ≤ 122 := by
  match v, h with
  | [c], h =>
    rw [isSingleLower_eq, Bool.and_eq_true, decide_eq_true_eq, decide_eq_true_eq] at h
    exact ⟨c, rfl, charLe_toNat h.1, charLe_toNat h.2⟩

theorem adjustLast_id {v : List Char} (h1 : isSingleLower v = false)
    (h2 : ¬v.map lowerAscii = str "tab") : adjustLast v = v := by
  rw [adjustLast, if_neg (ne_true_of_eq_false h1), if_neg h2]

theorem adjustLast_single {c : Char} (h1 : 97 ≤ c.toNat) (h2 : c.toNat ≤ 122) :
    adjustLast [c] = [upperAscii c] := by
  rw [adjustLast, if_pos (by
    rw [isSingleLower_eq, Bool.and_eq_true, decide_eq_true_eq, decide_eq_true_eq]
    exact ⟨charLe_of_toNat h1, charLe_of_toNat h2⟩)]
  rfl

theorem adjustLast_length : ∀ v : List Char, (adjustLast v).length = v.length := by
  intro v
  rw [adjustLast]
  by_cases h1 : isSingleLower v = true
  · rw [if_pos h1, List.length_map]
  · rw [if_neg h1]
    by_cases h2 : v.map lowerAscii = str "tab"
    · rw [if_pos h2]
      have := congrArg List.length h2
      rw [List.length_map] at this
      rw [this]
      rfl
    · rw [if_neg h2]

theorem adjustLast_no_plus {v : List Char} (hv : '+' ∉ v) : '+' ∉ adjustLast v := by
  rw [adjustLast]
  by_cases h1 : isSingleLower v = true
  · rw [if_pos h1]
    obtain ⟨c, rfl, hc1, hc2⟩ := isSingleLower_shape h1
    intro hm
    rw [show ([c].map upperAscii) = [upperAscii c] from rfl, List.mem_singleton] at hm
    have := upperAscii_toNat_lower hc1 hc2
    rw [← hm] at this
    have h43 : ('+').toNat = 43 := rfl
    omega
  · rw [if_neg h1]
    by_cases h2 : v.map lowerAscii = str "tab"
    · rw [if_pos h2]
      decide
    · rw [if_neg h2]
      exact hv

theorem adjustLast_idem : ∀ v : List Char, adjustLast (adjustLast v) = adjustLast v := by
  intro v
  by_cases h1 : isSingleLower v = true
  · obtain ⟨c, rfl, hc1, hc2⟩ := isSingleLower_shape h1
    rw [adjustLast_single hc1 hc2]
    have hU := upperAscii_toNat_lower hc1 hc2
    apply adjustLast_id
    · exact not_single_lower (by omega)
    · intro h
      have := congrArg List.length h
      rw [List.length_map] at this
      simp [str] at this
  · have h1f : isSingleLower v = false := bool_eq_false h1
    by_cases h2 : v.map lowerAscii = str "tab"
    · have hval : adjustLast v = str "Tab" := by
        rw [adjustLast, if_neg h1, if_pos h2]
      rw [hval]
      decide
    · rw [adjustLast_id h1f h2, adjustLast_id h1f h2]

theorem genAdjust_idem : ∀ s : List Char, genAdjust (genAdjust s) = genAdjust s := by
  intro s
  by_cases hp : '+' ∈ s
  · obtain ⟨u, v, rfl, hv⟩ := last_plus_decomp hp
    rw [genAdjust_plus u v hv, genAdjust_plus u (adjustLast v) (adjustLast_no_plus hv),
      adjustLast_idem]
  · rw [genAdjust_no_plus hp, genAdjust_no_plus hp]

theorem genAdjust_length : ∀ s : List Char, (genAdjust s).length = s.length := by
  intro s
  by_cases hp : '+' ∈ s
  · obtain ⟨u, v, rfl, hv⟩ := last_plus_decomp hp
    rw [genAdjust_plus u v hv, List.length_append, List.length_append,
      List.length_cons, List.length_cons, adjustLast_length]
  · rw [genAdjust_no_plus hp]

/-! ### Occurrence transfer across the last-part adjustment -/

theorem eqCI_plus {x : Char} (h : eqCI '+' x = true) : x = '+' := by
  rw [eqCI, decide_eq_true_eq] at h
  by_cases hx : 65 ≤ x.toNat ∧ x.toNat ≤ 90
  · exfalso
    have h2 := lowerAscii_toNat_upper hx.1 hx.2
    have h3 := congrArg Char.toNat h
    rw [h2, show (lowerAscii '+').toNat = 43 from rfl] at h3
    omega
  · rw [lowerAscii_eq_self hx, show lowerAscii '+' = '+' from rfl] at h
    exact h.symm

theorem matchesCI_last : ∀ (q t : List Char) (c : Char), q.getLast? = some c →
    matchesCI q t = true →
    ∃ x, (t.take q.length).getLast? = some x ∧ eqCI c x = true := by
  intro q
  induction q with
  | nil => intro t c hc _; exact absurd hc (by simp)
  | cons b q' ih =>
    intro t c hc h
    cases t with
    | nil => exact absurd h (by rw [matchesCI]; decide)
    | cons d ds =>
      rw [matchesCI, Bool.and_eq_true] at h
      cases q' with
      | nil =>
        rw [List.getLast?_singleton] at hc
        injection hc with hc2
        subst hc2
        exact ⟨d, rfl, h.1⟩
      | cons e q'' =>
        have hql : (e :: q'').getLast? = some c := by
          rwa [List.getLast?_cons_cons] at hc
        obtain ⟨x, hx, he⟩ := ih ds c hql h.2
        refine ⟨x, ?_, he⟩
        have hlen := matchesCI_length _ _ h.2
        have hne : ds.take (e :: q'').length ≠ [] := by
          intro h0
          have h1 := congrArg List.length h0
          rw [List.length_take, List.length_nil] at h1
          rw [List.length_cons] at h1 hlen
          omega
        rw [List.length_cons, List.take_succ_cons,
          show (d :: ds.take (e :: q'').length) = [d] ++ ds.take (e :: q'').length from rfl,
          getLast?_append_ne_nil hne]
        exact hx

theorem getLast?_take_eq {X : List Char} {n : Nat} (h1 : 0 < n) (h2 : n ≤ X.length) :
    (X.take n).getLast? = X[n - 1]? := by
  obtain ⟨m, rfl⟩ : ∃ m, n = m + 1 := ⟨n - 1, by omega⟩
  have hm : m < X.length := by omega
  rw [List.take_succ, show m + 1 - 1 = m from rfl, List.getElem?_eq_getElem hm]
  rw [show (some X[m] : Option Char).toList = [X[m]] from rfl,
    getLast?_append_ne_nil (by simp)]
  rfl

/-- An occurrence of a pattern ending in `+` cannot reach past a `+` that is
followed only by non-`+`-matching characters: it stays in the prefix. -/
theorem occ_within_prefix {q P w : List Char} {i : Nat} {c : Char}
    (hql : q.getLast? = some c) (hcw : ∀ x ∈ w, eqCI c x = false)
    (hi : matchesCI q ((P ++ w).drop i) = true) :
    i + q.length ≤ P.length := by
  by_contra hgt
  push_neg at hgt
  have hq0 : 0 < q.length := by
    cases q with
    | nil => simp at hql
    | cons => simp
  obtain ⟨x, hx, he⟩ := matchesCI_last q _ c hql hi
  have hlen := matchesCI_length _ _ hi
  rw [List.length_drop, List.length_append] at hlen
  rw [getLast?_take_eq hq0 (by rw [List.length_drop, List.length_append]; omega),
    List.getElem?_drop,
    List.getElem?_append_right (by omega : P.length ≤ i + (q.length - 1))] at hx
  have hxw : x ∈ w := List.getElem?_mem hx
  have hfalse := hcw x hxw
  rw [hfalse] at he
  exact absurd he (by decide)

theorem allLit_genAdjust (q lit : List Char) (hql : q.getLast? = some '+')
    (s : List Char) (hA : AllLit q lit s) : AllLit q lit (genAdjust s) := by
  by_cases hp : '+' ∈ s
  · obtain ⟨u, v, rfl, hv⟩ := last_plus_decomp hp
    rw [genAdjust_plus u v hv]
    have hw : ∀ x ∈ adjustLast v, eqCI '+' x = false := by
      intro x hx
      cases hq : eqCI '+' x with
      | false => rfl
      | true =>
        exfalso
        apply adjustLast_no_plus hv
        rw [← eqCI_plus hq]
        exact hx
    have hasc : u ++ '+' :: adjustLast v = (u ++ ['+']) ++ adjustLast v := by
      rw [List.append_assoc]
      rfl
    have hasc2 : u ++ '+' :: v = (u ++ ['+']) ++ v := by
      rw [List.append_assoc]
      rfl
    rw [hasc]
    intro i hi
    have hpre := occ_within_prefix hql hw hi
    rw [List.length_append] at hpre
    have hq0 : 0 < q.length := by
      cases q with
      | nil => simp at hql
      | cons => simp
    have hiP : i ≤ (u ++ ['+']).length := by rw [List.length_append]; omega
    have hqP : q.length ≤ ((u ++ ['+']).drop i).length := by
      rw [List.length_drop, List.length_append]
      omega
    rw [drop_append_le hiP, matchesCI_append_left q _ _ hqP] at hi
    rw [drop_append_le hiP, take_append_le hqP]
    have hAi := hA i (by
      rw [hasc2, drop_append_le hiP, matchesCI_append_left q _ _ hqP]
      exact hi)
    rw [hasc2, drop_append_le hiP, take_append_le hqP] at hAi
    exact hAi
  · rwa [genAdjust_no_plus hp]

theorem noOcc_genAdjust (q : List Char) (hql : q.getLast? = some '+')
    (s : List Char) (hN : NoOcc q s) : NoOcc q (genAdjust s) := by
  by_cases hp : '+' ∈ s
  · obtain ⟨u, v, rfl, hv⟩ := last_plus_decomp hp
    rw [genAdjust_plus u v hv]
    have hw : ∀ x ∈ adjustLast v, eqCI '+' x = false := by
      intro x hx
      cases hq : eqCI '+' x with
      | false => rfl
      | true =>
        exfalso
        apply adjustLast_no_plus hv
        rw [← eqCI_plus hq]
        exact hx
    have hasc : u ++ '+' :: adjustLast v = (u ++ ['+']) ++ adjustLast v := by
      rw [List.append_assoc]
      rfl
    have hasc2 : u ++ '+' :: v = (u ++ ['+']) ++ v := by
      rw [List.append_assoc]
      rfl
    rw [hasc]
    intro i
    cases hcon : matchesCI q (((u ++ ['+']) ++ adjustLast v).drop i) with
    | false => rfl
    | true =>
      exfalso
      have hpre := occ_within_prefix hql hw hcon
      rw [List.length_append] at hpre
      have hq0 : 0 < q.length := by
        cases q with
        | nil => simp at hql
        | cons => simp
      have hiP : i ≤ (u ++ ['+']).length := by rw [List.length_append]; omega
      have hqP : q.length ≤ ((u ++ ['+']).drop i).length := by
        rw [List.length_drop, List.length_append]
        omega
      rw [drop_append_le hiP, matchesCI_append_left q _ _ hqP] at hcon
      have := hN i
      rw [hasc2, drop_append_le hiP, matchesCI_append_left q _ _ hqP, hcon] at this
      exact absurd this (by decide)
  · rwa [genAdjust_no_plus hp]

/-! ### The general path is idempotent -/

/-- After the general path, every `ctrl+`/`alt+`/`shift+` occurrence is
literally canonical and no `meta+` occurrence remains. -/
theorem genPath_facts (T : List Char) :
    AllLit (str "ctrl+") (str "Ctrl+") (genPath T) ∧
    AllLit (str "alt+") (str "Alt+") (genPath T) ∧
    AllLit (str "shift+") (str "Shift+") (genPath T) ∧
    NoOcc (str "meta+") (genPath T) := by
  rw [genPath]
  have hc1 : AllLit (str "ctrl+") (str "Ctrl+")
      (replaceCI (str "ctrl+") (str "Ctrl+") T) :=
    allLit_replace_own _ _ (by decide) (by decide) (by decide) (by decide) T
  have hc2 := allLit_replace (str "ctrl+") (str "Ctrl+") (str "alt+") (str "Alt+")
    (by decide) (by decide) (by decide) (by decide) _ hc1
  have hc3 := allLit_replace (str "ctrl+") (str "Ctrl+") (str "shift+") (str "Shift+")
    (by decide) (by decide) (by decide) (by decide) _ hc2
  have hc4 := allLit_replace (str "ctrl+") (str "Ctrl+") (str "meta+") (str "Alt+")
    (by decide) (by decide) (by decide) (by decide) _ hc3
  have ha2 : AllLit (str "alt+") (str "Alt+")
      (replaceCI (str "alt+") (str "Alt+") (replaceCI (str "ctrl+") (str "Ctrl+") T)) :=
    allLit_replace_own _ _ (by decide) (by decide) (by decide) (by decide) _
  have ha3 := allLit_replace (str "alt+") (str "Alt+") (str "shift+") (str "Shift+")
    (by decide) (by decide) (by decide) (by decide) _ ha2
  have ha4 := allLit_replace (str "alt+") (str "Alt+") (str "meta+") (str "Alt+")
    (by decide) (by decide) (by decide) (by decide) _ ha3
  have hs3 : AllLit (str "shift+") (str "Shift+")
      (replaceCI (str "shift+") (str "Shift+")
        (replaceCI (str "alt+") (str "Alt+")
          (replaceCI (str "ctrl+") (str "Ctrl+") T))) :=
    allLit_replace_own _ _ (by decide) (by decide) (by decide) (by decide) _
  have hs4 := allLit_replace (str "shift+") (str "Shift+") (str "meta+") (str "Alt+")
    (by decide) (by decide) (by decide) (by decide) _ hs3
  have hm4 : NoOcc (str "meta+")
      (replaceCI (str "meta+") (str "Alt+")
        (replaceCI (str "shift+") (str "Shift+")
          (replaceCI (str "alt+") (str "Alt+")
            (replaceCI (str "ctrl+") (str "Ctrl+") T)))) :=
    noOcc_replace_own _ _ (by decide) (by decide) (by decide) _
  exact ⟨allLit_genAdjust _ _ (by decide) _ hc4,
    allLit_genAdjust _ _ (by decide) _ ha4,
    allLit_genAdjust _ _ (by decide) _ hs4,
    noOcc_genAdjust _ (by decide) _ hm4⟩

/-- On text where the modifier occurrences are already canonical, the four
replace passes vanish and the general path reduces to the final adjustment. -/
theorem genPath_self (F : List Char)
    (h1 : AllLit (str "ctrl+") (str "Ctrl+") F)
    (h2 : AllLit (str "alt+") (str "Alt+") F)
    (h3 : AllLit (str "shift+") (str "Shift+") F)
    (h4 : NoOcc (str "meta+") F) :
    genPath F = genAdjust F := by
  rw [genPath,
    replace_fix_of_allLit (str "ctrl+") (str "Ctrl+") (by decide) (by decide) F h1,
    replace_fix_of_allLit (str "alt+") (str "Alt+") (by decide) (by decide) F h2,
    replace_fix_of_allLit (str "shift+") (str "Shift+") (by decide) (by decide) F h3,
    replace_fix_of_noOcc (str "meta+") (str "Alt+") (by decide) F h4]

theorem genPath_idem (T : List Char) : genPath (genPath T) = genPath T := by
  obtain ⟨h1, h2, h3, h4⟩ := genPath_facts T
  rw [genPath_self _ h1 h2 h3 h4]
  conv_rhs => rw [genPath]
  conv_lhs => rw [genPath]
  exact genAdjust_idem _

/-! ### Shape preservation through the general path -/

theorem head?_append_ne_nil {a b : List Char} (h : a ≠ []) :
    (a ++ b).head? = a.head? := by
  cases a with
  | nil => exact absurd rfl h
  | cons x xs => rfl

theorem replace_ne_nil (pat rep : List Char) (hp : pat ≠ []) (hr : rep ≠ [])
    (s : List Char) (hs : s ≠ []) : replaceCI pat rep s ≠ [] := by
  rcases replace_split pat rep hp s with ⟨_, heq⟩ | ⟨k, _, _, heq⟩
  · rwa [heq]
  · rw [heq]
    intro h0
    rw [List.append_eq_nil, List.append_eq_nil] at h0
    exact hr h0.1.2

theorem replace_head (pat rep : List Char) (hp : pat ≠ []) (hr : rep ≠ [])
    (s : List Char) :
    (replaceCI pat rep s).head? = s.head? ∨ (replaceCI pat rep s).head? = rep.head? := by
  rcases replace_split pat rep hp s with ⟨_, heq⟩ | ⟨k, _, hk, heq⟩
  · left; rw [heq]
  · have hpl : 0 < pat.length := by
      cases pat with
      | nil => exact absurd rfl hp
      | cons => simp
    have hkl : k < s.length := by
      have := matchesCI_length pat _ hk
      rw [List.length_drop] at this
      omega
    rw [heq]
    by_cases hk0 : k = 0
    · right
      subst hk0
      rw [List.take_zero, List.nil_append, head?_append_ne_nil hr]
    · left
      have htk : s.take k ≠ [] := by
        intro h0
        have := congrArg List.length h0
        rw [List.length_take, List.length_nil] at this
        omega
      rw [List.append_assoc, head?_append_ne_nil htk, head?_take_pos (by omega)]

theorem replace_getLast (pat rep : List Char) (hp : pat ≠ []) (hr : rep ≠ []) :
    ∀ s, (replaceCI pat rep s).getLast? = s.getLast? ∨
      (replaceCI pat rep s).getLast? = rep.getLast? := by
  refine listStrongLen ?_
  intro s ihs
  rcases replace_split pat rep hp s with ⟨_, heq⟩ | ⟨k, _, hk, heq⟩
  · left; rw [heq]
  · have hpl : 0 < pat.length := by
      cases pat with
      | nil => exact absurd rfl hp
      | cons => simp
    have hkl : k < s.length := by
      have := matchesCI_length pat _ hk
      rw [List.length_drop] at this
      omega
    rw [heq]
    by_cases hs2 : s.drop (k + pat.length) = []
    · rw [hs2, replaceCI_nil, List.append_nil]
      right
      exact getLast?_append_ne_nil hr
    · have hO := replace_ne_nil pat rep hp hr _ hs2
      rw [getLast?_append_ne_nil hO]
      rcases ihs (s.drop (k + pat.length)) (by rw [List.length_drop]; omega) with h | h
      · left
        rw [h]
        conv_rhs => rw [← List.take_append_drop (k + pat.length) s]
        rw [getLast?_append_ne_nil hs2]
      · right
        exact h

theorem replace_length (pat rep : List Char) (hp : pat ≠ []) (s : List Char) :
    replaceCI pat rep s = s ∨ rep.length ≤ (replaceCI pat rep s).length := by
  rcases replace_split pat rep hp s with ⟨_, heq⟩ | ⟨k, _, _, heq⟩
  · left; exact heq
  · right
    rw [heq, List.length_append, List.length_append]
    omega

theorem pass_head_not {pat rep s : List Char} (hp : pat ≠ []) (hr : rep ≠ [])
    (hrep : ∀ c, rep.head? = some c → isGoSpace c = false)
    (hs : ∀ c, s.head? = some c → isGoSpace c = false) :
    ∀ c, (replaceCI pat rep s).head? = some c → isGoSpace c = false := by
  intro c hc
  rcases replace_head pat rep hp hr s with h | h
  · rw [h] at hc
    exact hs c hc
  · rw [h] at hc
    exact hrep c hc

theorem pass_last_not {pat rep s : List Char} (hp : pat ≠ []) (hr : rep ≠ [])
    (hrep : ∀ c, rep.getLast? = some c → isGoSpace c = false)
    (hs : ∀ c, s.getLast? = some c → isGoSpace c = false) :
    ∀ c, (replaceCI pat rep s).getLast? = some c → isGoSpace c = false := by
  intro c hc
  rcases replace_getLast pat rep hp hr s with h | h
  · rw [h] at hc
    exact hs c hc
  · rw [h] at hc
    exact hrep c hc

theorem genAdjust_head_not {s : List Char}
    (hs : ∀ c, s.head? = some c → isGoSpace c = false) :
    ∀ c, (genAdjust s).head? = some c → isGoSpace c = false := by
  by_cases hp : '+' ∈ s
  · obtain ⟨u, v, rfl, hv⟩ := last_plus_decomp hp
    rw [genAdjust_plus u v hv]
    intro c hc
    cases u with
    | nil =>
      rw [List.nil_append, List.head?_cons] at hc
      injection hc with hc2
      subst hc2
      decide
    | cons a u' =>
      rw [List.cons_append, List.head?_cons] at hc
      injection hc with hc2
      subst hc2
      exact hs a (by rw [List.cons_append, List.head?_cons])
  · rw [genAdjust_no_plus hp]
    exact hs

theorem adjustLast_last_not {v : List Char}
    (hv : ∀ c, v.getLast? = some c → isGoSpace c = false) :
    ∀ c, (adjustLast v).getLast? = some c → isGoSpace c = false := by
  intro c hc
  by_cases h1 : isSingleLower v = true
  · obtain ⟨d, rfl, hd1, hd2⟩ := isSingleLower_shape h1
    rw [adjustLast_single hd1 hd2, List.getLast?_singleton] at hc
    injection hc with hc2
    subst hc2
    have := upperAscii_toNat_lower hd1 hd2
    exact not_space_of_range (by omega) (by omega)
  · have h1f : isSingleLower v = false := bool_eq_false h1
    by_cases h2 : v.map lowerAscii = str "tab"
    · rw [adjustLast, if_neg h1, if_pos h2] at hc
      have : c = 'b' := by
        rw [show (str "Tab").getLast? = some 'b' from rfl] at hc
        injection hc with hc2
        exact hc2.symm
      subst this
      decide
    · rw [adjustLast_id h1f h2] at hc
      exact hv c hc

theorem genAdjust_last_not {s : List Char}
    (hs : ∀ c, s.getLast? = some c → isGoSpace c = false) :
    ∀ c, (genAdjust s).getLast? = some c → isGoSpace c = false := by
  by_cases hp : '+' ∈ s
  · obtain ⟨u, v, rfl, hv⟩ := last_plus_decomp hp
    rw [genAdjust_plus u v hv]
    intro c hc
    by_cases hv0 : v = []
    · subst hv0
      rw [show adjustLast [] = [] from rfl,
        getLast?_append_ne_nil (by simp : ('+' :: [] : List Char) ≠ [])] at hc
      rw [List.getLast?_singleton] at hc
      injection hc with hc2
      subst hc2
      decide
    · have hw : adjustLast v ≠ [] := by
        intro h0
        have := congrArg List.length h0
        rw [adjustLast_length, List.length_nil] at this
        exact hv0 (List.length_eq_zero.mp this)
      have hsv : ∀ d, v.getLast? = some d → isGoSpace d = false := by
        intro d hd
        apply hs d
        rw [getLast?_append_ne_nil (by simp : ('+' :: v : List Char) ≠ []),
          show ('+' :: v : List Char) = ['+'] ++ v from rfl, getLast?_append_ne_nil hv0]
        exact hd
      rw [getLast?_append_ne_nil (by simp : ('+' :: adjustLast v : List Char) ≠ []),
        show ('+' :: adjustLast v : List Char) = ['+'] ++ adjustLast v from rfl,
        getLast?_append_ne_nil hw] at hc
      exact adjustLast_last_not hsv c hc
  · rw [genAdjust_no_plus hp]
    exact hs

theorem genPath_head_not {T : List Char}
    (hh : ∀ c, T.head? = some c → isGoSpace c = false) :
    ∀ c, (genPath T).head? = some c → isGoSpace c = false := by
  rw [genPath]
  exact genAdjust_head_not (pass_head_not (by decide) (by decide) (by decide)
    (pass_head_not (by decide) (by decide) (by decide)
      (pass_head_not (by decide) (by decide) (by decide)
        (pass_head_not (by decide) (by decide) (by decide) hh))))

theorem genPath_last_not {T : List Char}
    (hl : ∀ c, T.getLast? = some c → isGoSpace c = false) :
    ∀ c, (genPath T).getLast? = some c → isGoSpace c = false := by
  rw [genPath]
  exact genAdjust_last_not (pass_last_not (by decide) (by decide) (by decide)
    (pass_last_not (by decide) (by decide) (by decide)
      (pass_last_not (by decide) (by decide) (by decide)
        (pass_last_not (by decide) (by decide) (by decide) hl))))

theorem pass_length_ge {pat rep s : List Char} (hp : pat ≠ [])
    (h4r : 4 ≤ rep.length) (h4s : 4 ≤ s.length) :
    4 ≤ (replaceCI pat rep s).length := by
  rcases replace_length pat rep hp s with h | h
  · rw [h]
    exact h4s
  · omega

theorem genPath_length_ge {T : List Char} (h4 : 4 ≤ T.length) :
    4 ≤ (genPath T).length := by
  rw [genPath, genAdjust_length]
  exact pass_length_ge (by decide) (by decide)
    (pass_length_ge (by decide) (by decide)
      (pass_length_ge (by decide) (by decide)
        (pass_length_ge (by decide) (by decide) h4)))

/-! ### Fixed points `Ctrl+X` and `Alt+X` of the normalizer -/

theorem matchesCI_nil_ne {q : List Char} (hq : q ≠ []) : matchesCI q [] = false := by
  cases q with
  | nil => exact absurd rfl hq
  | cons a qs => rfl

theorem matchesCI_singleton {q : List Char} (hq : 2 ≤ q.length) (u : Char) :
    matchesCI q [u] = false := by
  match q, hq with
  | a :: b :: qs, _ =>
    rw [matchesCI, show matchesCI (b :: qs) ([] : List Char) = false from rfl,
      Bool.and_false]

theorem matchesCI_drop_beyond {q s : List Char} (hq : q ≠ []) {i : Nat}
    (h : s.length ≤ i) : matchesCI q (s.drop i) = false := by
  rw [List.drop_eq_nil_of_le h]
  exact matchesCI_nil_ne hq

theorem allLit_of_noOcc {q lit F : List Char} (h : NoOcc q F) : AllLit q lit F := by
  intro i hi
  rw [h i] at hi
  exact absurd hi (by decide)

theorem ctrlX_allLit_ctrl (u : Char) :
    AllLit (str "ctrl+") (str "Ctrl+") (str "Ctrl+" ++ [u]) := by
  intro i hi
  match i with
  | 0 => rfl
  | 1 => exact absurd hi (ne_true_of_eq_false rfl)
  | 2 => exact absurd hi (ne_true_of_eq_false rfl)
  | 3 => exact absurd hi (ne_true_of_eq_false rfl)
  | 4 => exact absurd hi (ne_true_of_eq_false rfl)
  | 5 =>
    exact absurd hi (ne_true_of_eq_false (by
      rw [show (str "Ctrl+" ++ [u]).drop 5 = [u] from rfl]
      exact matchesCI_singleton (by decide) u))
  | i + 6 =>
    exact absurd hi (ne_true_of_eq_false (matchesCI_drop_beyond (by decide)
      (by rw [show (str "Ctrl+" ++ [u]).length = 6 from rfl]; omega)))

theorem ctrlX_noOcc (q : List Char) (hq2 : 2 ≤ q.length) (u : Char)
    (k0 : matchesCI q ((str "Ctrl+" ++ [u]).drop 0) = false)
    (k1 : matchesCI q ((str "Ctrl+" ++ [u]).drop 1) = false)
    (k2 : matchesCI q ((str "Ctrl+" ++ [u]).drop 2) = false)
    (k3 : matchesCI q ((str "Ctrl+" ++ [u]).drop 3) = false)
    (k4 : matchesCI q ((str "Ctrl+" ++ [u]).drop 4) = false) :
    NoOcc q (str "Ctrl+" ++ [u]) := by
  intro i
  match i with
  | 0 => exact k0
  | 1 => exact k1
  | 2 => exact k2
  | 3 => exact k3
  | 4 => exact k4
  | 5 =>
    rw [show (str "Ctrl+" ++ [u]).drop 5 = [u] from rfl]
    exact matchesCI_singleton hq2 u
  | i + 6 =>
    exact matchesCI_drop_beyond (by
      intro h0
      rw [h0] at hq2
      exact absurd hq2 (by decide))
      (by rw [show (str "Ctrl+" ++ [u]).length = 6 from rfl]; omega)

theorem singleton_no_plus {u : Char} (hplus : u ≠ '+') : '+' ∉ ([u] : List Char) := by
  intro hm
  rw [List.mem_singleton] at hm
  exact hplus hm.symm

theorem adjustLast_single_id {u : Char} (hlow : ¬(97 ≤ u.toNat ∧ u.toNat ≤ 122)) :
    adjustLast [u] = [u] := by
  apply adjustLast_id (not_single_lower hlow)
  intro h
  have := congrArg List.length h
  rw [List.length_map, List.length_singleton] at this
  exact absurd this (by decide)

/-- `Ctrl+X` for a non-lower-case, non-`+`, non-space `X` is a fixed point of
the key normalizer. -/
theorem ctrl_plus_fix (u : Char) (hlow : ¬(97 ≤ u.toNat ∧ u.toNat ≤ 122))
    (hplus : u ≠ '+') (hspace : isGoSpace u = false) :
    normalizeKey (str "Ctrl+" ++ [u]) = str "Ctrl+" ++ [u] := by
  have hhd : ∀ c, (str "Ctrl+" ++ [u]).head? = some c → isGoSpace c = false := by
    intro c hc
    rw [head?_append_ne_nil (by decide), show (str "Ctrl+").head? = some 'C' from rfl] at hc
    injection hc with h2
    subst h2
    decide
  have hlt : ∀ c, (str "Ctrl+" ++ [u]).getLast? = some c → isGoSpace c = false := by
    intro c hc
    rw [getLast?_append_ne_nil (by simp), List.getLast?_singleton] at hc
    injection hc with h2
    subst h2
    exact hspace
  have hna := ctrlX_noOcc (str "alt+") (by decide) u rfl rfl rfl rfl rfl
  have hns := ctrlX_noOcc (str "shift+") (by decide) u rfl rfl rfl rfl rfl
  have hnm := ctrlX_noOcc (str "meta+") (by decide) u rfl rfl rfl rfl rfl
  have hdisp : dispatchKey (str "Ctrl+" ++ [u]) = genPath (str "Ctrl+" ++ [u]) :=
    dispatchKey_big 'C' 't' 'r' 'l' ('+' :: [u])
  rw [normalizeKey, trimSpace_eq_self hhd hlt, hdisp,
    genPath_self _ (ctrlX_allLit_ctrl u) (allLit_of_noOcc hna) (allLit_of_noOcc hns) hnm,
    show str "Ctrl+" ++ [u] = str "Ctrl" ++ '+' :: [u] from rfl,
    genAdjust_plus _ _ (singleton_no_plus hplus), adjustLast_single_id hlow]

theorem altX_allLit_alt (u : Char) :
    AllLit (str "alt+") (str "Alt+") (str "Alt+" ++ [u]) := by
  intro i hi
  match i with
  | 0 => rfl
  | 1 => exact absurd hi (ne_true_of_eq_false rfl)
  | 2 => exact absurd hi (ne_true_of_eq_false rfl)
  | 3 => exact absurd hi (ne_true_of_eq_false rfl)
  | 4 =>
    exact absurd hi (ne_true_of_eq_false (by
      rw [show (str "Alt+" ++ [u]).drop 4 = [u] from rfl]
      exact matchesCI_singleton (by decide) u))
  | i + 5 =>
    exact absurd hi (ne_true_of_eq_false (matchesCI_drop_beyond (by decide)
      (by rw [show (str "Alt+" ++ [u]).length = 5 from rfl]; omega)))

theorem altX_noOcc (q : List Char) (hq2 : 2 ≤ q.length) (u : Char)
    (k0 : matchesCI q ((str "Alt+" ++ [u]).drop 0) = false)
    (k1 : matchesCI q ((str "Alt+" ++ [u]).drop 1) = false)
    (k2 : matchesCI q ((str "Alt+" ++ [u]).drop 2) = false)
    (k3 : matchesCI q ((str "Alt+" ++ [u]).drop 3) = false) :
    NoOcc q (str "Alt+" ++ [u]) := by
  intro i
  match i with
  | 0 => exact k0
  | 1 => exact k1
  | 2 => exact k2
  | 3 => exact k3
  | 4 =>
    rw [show (str "Alt+" ++ [u]).drop 4 = [u] from rfl]
    exact matchesCI_singleton hq2 u
  | i + 5 =>
    exact matchesCI_drop_beyond (by
      intro h0
      rw [h0] at hq2
      exact absurd hq2 (by decide))
      (by rw [show (str "Alt+" ++ [u]).length = 5 from rfl]; omega)

/-- `Alt+X` for a non-lower-case, non-`+`, non-space `X` is a fixed point of
the key normalizer. -/
theorem alt_plus_fix (u : Char) (hlow : ¬(97 ≤ u.toNat ∧ u.toNat ≤ 122))
    (hplus : u ≠ '+') (hspace : isGoSpace u = false) :
    normalizeKey (str "Alt+" ++ [u]) = str "Alt+" ++ [u] := by
  have hhd : ∀ c, (str "Alt+" ++ [u]).head? = some c → isGoSpace c = false := by
    intro c hc
    rw [head?_append_ne_nil (by decide), show (str "Alt+").head? = some 'A' from rfl] at hc
    injection hc with h2
    subst h2
    decide
  have hlt : ∀ c, (str "Alt+" ++ [u]).getLast? = some c → isGoSpace c = false := by
    intro c hc
    rw [getLast?_append_ne_nil (by simp), List.getLast?_singleton] at hc
    injection hc with h2
    subst h2
    exact hspace
  have hnc := altX_noOcc (str "ctrl+") (by decide) u rfl rfl rfl rfl
  have hns := altX_noOcc (str "shift+") (by decide) u rfl rfl rfl rfl
  have hnm := altX_noOcc (str "meta+") (by decide) u rfl rfl rfl rfl
  have hdisp : dispatchKey (str "Alt+" ++ [u]) = genPath (str "Alt+" ++ [u]) :=
    dispatchKey_big 'A' 'l' 't' ('+') ([u])
  rw [normalizeKey, trimSpace_eq_self hhd hlt, hdisp,
    genPath_self _ (allLit_of_noOcc hnc) (altX_allLit_alt u) (allLit_of_noOcc hns) hnm,
    show str "Alt+" ++ [u] = str "Alt" ++ '+' :: [u] from rfl,
    genAdjust_plus _ _ (singleton_no_plus hplus), adjustLast_single_id hlow]

/-! ### Short keys through the general path -/

theorem replaceCI_short (pat rep s : List Char) (hp : pat ≠ [])
    (h : s.length < pat.length) : replaceCI pat rep s = s := by
  rcases replace_split pat rep hp s with ⟨_, heq⟩ | ⟨k, _, hk, _⟩
  · exact heq
  · exfalso
    have := matchesCI_length pat _ hk
    rw [List.length_drop] at this
    omega

theorem genPath_short {s : List Char} (h : s.length ≤ 3) :
    genPath s = genAdjust s := by
  rw [genPath,
    replaceCI_short (str "ctrl+") (str "Ctrl+") s (by decide)
      (by rw [show (str "ctrl+").length = 5 from rfl]; omega),
    replaceCI_short (str "alt+") (str "Alt+") s (by decide)
      (by rw [show (str "alt+").length = 4 from rfl]; omega),
    replaceCI_short (str "shift+") (str "Shift+") s (by decide)
      (by rw [show (str "shift+").length = 6 from rfl]; omega),
    replaceCI_short (str "meta+") (str "Alt+") s (by decide)
      (by rw [show (str "meta+").length = 5 from rfl]; omega)]

theorem genAdjust_one (a : Char) : genAdjust [a] = [a] := by
  by_cases ha : a = '+'
  · subst ha
    decide
  · exact genAdjust_no_plus (by
      intro hm
      rw [List.mem_singleton] at hm
      exact ha hm.symm)

theorem isSingleLower_pair (b d : Char) : isSingleLower [b, d] = false := rfl

theorem adjustLast_pair (b d : Char) : adjustLast [b, d] = [b, d] := by
  apply adjustLast_id (isSingleLower_pair b d)
  intro h
  have := congrArg List.length h
  rw [List.length_map] at this
  simp [str] at this

theorem adjustLast_one_ex (b : Char) : ∃ z, adjustLast [b] = [z] := by
  by_cases h1 : isSingleLower [b] = true
  · obtain ⟨c0, hc0, hb1, hb2⟩ := isSingleLower_shape h1
    injection hc0 with hb hnil
    subst hb
    exact ⟨upperAscii b, adjustLast_single hb1 hb2⟩
  · refine ⟨b, adjustLast_id (bool_eq_false h1) ?_⟩
    intro h
    have := congrArg List.length h
    rw [List.length_map, List.length_singleton] at this
    exact absurd this (by decide)

theorem genAdjust_two (a b : Char) : ∃ z, genAdjust [a, b] = [a, z] := by
  by_cases hp : '+' ∈ [a, b]
  · obtain ⟨u, v, heq, hv⟩ := last_plus_decomp hp
    cases u with
    | nil =>
      rw [List.nil_append] at heq
      injection heq with h1 h2
      subst h1
      subst h2
      obtain ⟨z, hz⟩ := adjustLast_one_ex b
      refine ⟨z, ?_⟩
      have hgp := genAdjust_plus [] [b] hv
      rw [List.nil_append, List.nil_append, hz] at hgp
      exact hgp
    | cons x u' =>
      cases u' with
      | nil =>
        rw [List.cons_append, List.nil_append] at heq
        injection heq with h1 h2
        injection h2 with h2a h2b
        subst h1
        subst h2a
        subst h2b
        refine ⟨'+', ?_⟩
        have hgp := genAdjust_plus [a] [] hv
        rw [show adjustLast [] = [] from rfl] at hgp
        exact hgp
      | cons y u'' =>
        exfalso
        have h2 := congrArg List.length heq
        simp only [List.length_cons, List.length_append, List.length_nil] at h2
        omega
  · exact ⟨b, genAdjust_no_plus hp⟩

theorem genAdjust_two_fix {a b : Char} (ha : a ≠ '+') : genAdjust [a, b] = [a, b] := by
  by_cases hp : '+' ∈ [a, b]
  · obtain ⟨u, v, heq, hv⟩ := last_plus_decomp hp
    cases u with
    | nil =>
      rw [List.nil_append] at heq
      injection heq with h1 _
      exact absurd h1 ha
    | cons x u' =>
      cases u' with
      | nil =>
        rw [List.cons_append, List.nil_append] at heq
        injection heq with h1 h2
        injection h2 with h2a h2b
        subst h1
        subst h2a
        subst h2b
        have hgp := genAdjust_plus [a] [] hv
        rw [show adjustLast [] = [] from rfl] at hgp
        exact hgp
      | cons y u'' =>
        exfalso
        have h2 := congrArg List.length heq
        simp only [List.length_cons, List.length_append, List.length_nil] at h2
        omega
  · exact genAdjust_no_plus hp

theorem genAdjust_three (a b d : Char) : ∃ z, genAdjust [a, b, d] = [a, b, z] := by
  by_cases hp : '+' ∈ [a, b, d]
  · obtain ⟨u, v, heq, hv⟩ := last_plus_decomp hp
    cases u with
    | nil =>
      rw [List.nil_append] at heq
      injection heq with h1 h2
      subst h1
      subst h2
      refine ⟨d, ?_⟩
      have hgp := genAdjust_plus [] [b, d] hv
      rw [List.nil_append, List.nil_append, adjustLast_pair] at hgp
      exact hgp
    | cons x u' =>
      cases u' with
      | nil =>
        rw [List.cons_append, List.nil_append] at heq
        injection heq with h1 h2
        injection h2 with h2a h2b
        subst h1
        subst h2a
        subst h2b
        obtain ⟨z, hz⟩ := adjustLast_one_ex d
        refine ⟨z, ?_⟩
        have hgp := genAdjust_plus [a] [d] hv
        rw [hz] at hgp
        exact hgp
      | cons y u'' =>
        cases u'' with
        | nil =>
          rw [List.cons_append, List.cons_append, List.nil_append] at heq
          injection heq with h1 h2
          injection h2 with h2a h2b
          injection h2b with h2c h2d
          subst h1
          subst h2a
          subst h2c
          subst h2d
          refine ⟨'+', ?_⟩
          have hgp := genAdjust_plus [a, b] [] hv
          rw [show adjustLast [] = [] from rfl] at hgp
          exact hgp
        | cons w u''' =>
          exfalso
          have h2 := congrArg List.length heq
          simp only [List.length_cons, List.length_append, List.length_nil] at h2
          omega
  · exact ⟨d, genAdjust_no_plus hp⟩

theorem genAdjust_three_fix {a b d : Char} (hb : b ≠ '+') :
    genAdjust [a, b, d] = [a, b, d] := by
  by_cases hp : '+' ∈ [a, b, d]
  · obtain ⟨u, v, heq, hv⟩ := last_plus_decomp hp
    cases u with
    | nil =>
      rw [List.nil_append] at heq
      injection heq with h1 h2
      subst h1
      subst h2
      have hgp := genAdjust_plus [] [b, d] hv
      rw [List.nil_append, List.nil_append, adjustLast_pair] at hgp
      exact hgp
    | cons x u' =>
      cases u' with
      | nil =>
        rw [List.cons_append, List.nil_append] at heq
        injection heq with h1 h2
        injection h2 with h2a h2b
        exact absurd h2a hb
      | cons y u'' =>
        cases u'' with
        | nil =>
          rw [List.cons_append, List.cons_append, List.nil_append] at heq
          injection heq with h1 h2
          injection h2 with h2a h2b
          injection h2b with h2c h2d
          subst h1
          subst h2a
          subst h2c
          subst h2d
          have hgp := genAdjust_plus [a, b] [] hv
          rw [show adjustLast [] = [] from rfl] at hgp
          exact hgp
        | cons w u''' =>
          exfalso
          have h2 := congrArg List.length heq
          simp only [List.length_cons, List.length_append, List.length_nil] at h2
          omega
  · exact genAdjust_no_plus hp

theorem exists_cons4 {l : List Char} (h : 4 ≤ l.length) :
    ∃ a b c d r, l = a :: b :: c :: d :: r := by
  match l, h with
  | a :: b :: c :: d :: r, _ => exact ⟨a, b, c, d, r, rfl⟩

/-! ### Idempotence of the key normalizer -/

theorem caret_fix_upper {c : Char} (h1 : 65 ≤ c.toNat) (h2 : c.toNat ≤ 90) :
    normalizeKey (caretResult c) = caretResult c := by
  by_cases hI : c = 'I'
  · subst hI
    decide
  · by_cases hM : c = 'M'
    · subst hM
      decide
    · by_cases hH : c = 'H'
      · subst hH
        decide
      · have hcr : caretResult c = str "Ctrl+" ++ [c] := by
          rw [caretResult,
            if_neg (char_ne_of_toNat (by rw [show ('[').toNat = 91 from rfl]; omega)),
            if_neg hI, if_neg hM, if_neg hH,
            if_neg (char_ne_of_toNat (by rw [show ('@').toNat = 64 from rfl]; omega)),
            if_neg (char_ne_of_toNat (by rw [show ('_').toNat = 95 from rfl]; omega)),
            if_neg (char_ne_of_toNat (by rw [show ('\\').toNat = 92 from rfl]; omega)),
            if_neg (char_ne_of_toNat (by rw [show (']').toNat = 93 from rfl]; omega))]
        rw [hcr]
        exact ctrl_plus_fix c (by omega)
          (char_ne_of_toNat (by rw [show ('+').toNat = 43 from rfl]; omega))
          (not_space_of_range (by omega) (by omega))

theorem classChar_cases {d : Char} (h : classChar d = true) :
    (65 ≤ d.toNat ∧ d.toNat ≤ 90) ∨ (97 ≤ d.toNat ∧ d.toNat ≤ 122) ∨
    d = '@' ∨ d = '_' ∨ d = '[' ∨ d = ']' ∨ d = '\\' := by
  rw [classChar] at h
  simp only [Bool.or_eq_true, Bool.and_eq_true, decide_eq_true_eq] at h
  rcases h with (((((⟨ha, hb⟩ | ⟨ha, hb⟩) | h0) | h0) | h0) | h0) | h0
  · exact Or.inl ⟨charLe_toNat ha, charLe_toNat hb⟩
  · exact Or.inr (Or.inl ⟨charLe_toNat ha, charLe_toNat hb⟩)
  · exact Or.inr (Or.inr (Or.inl h0))
  · exact Or.inr (Or.inr (Or.inr (Or.inl h0)))
  · exact Or.inr (Or.inr (Or.inr (Or.inr (Or.inl h0))))
  · exact Or.inr (Or.inr (Or.inr (Or.inr (Or.inr (Or.inl h0)))))
  · exact Or.inr (Or.inr (Or.inr (Or.inr (Or.inr (Or.inr h0)))))

theorem classChar_upper_bounds {d : Char} (h : classChar d = true) :
    64 ≤ (upperAscii d).toNat ∧ (upperAscii d).toNat ≤ 95 := by
  rcases classChar_cases h with ⟨h1, h2⟩ | ⟨h1, h2⟩ | h0 | h0 | h0 | h0 | h0
  · rw [upperAscii_eq_self (by omega)]
    omega
  · rw [upperAscii_toNat_lower h1 h2]
    omega
  all_goals (subst h0; decide)

theorem letterChar_upper_bounds {d : Char} (h : letterChar d = true) :
    65 ≤ (upperAscii d).toNat ∧ (upperAscii d).toNat ≤ 90 := by
  rw [letterChar] at h
  simp only [Bool.or_eq_true, Bool.and_eq_true, decide_eq_true_eq] at h
  rcases h with ⟨ha, hb⟩ | ⟨ha, hb⟩
  · have h1 : 65 ≤ d.toNat := charLe_toNat ha
    have h2 : d.toNat ≤ 90 := charLe_toNat hb
    rw [upperAscii_eq_self (by omega)]
    omega
  · have h1 : 97 ≤ d.toNat := charLe_toNat ha
    have h2 : d.toNat ≤ 122 := charLe_toNat hb
    rw [upperAscii_toNat_lower h1 h2]
    omega

/-- `normalizeKey` is the identity on every dispatch output of a trimmed key:
the central step of its idempotence. -/
theorem dispatch_idem (T : List Char)
    (hh : ∀ c, T.head? = some c → isGoSpace c = false)
    (hl : ∀ c, T.getLast? = some c → isGoSpace c = false) :
    normalizeKey (dispatchKey T) = dispatchKey T := by
  cases T with
  | nil => decide
  | cons a T1 =>
    cases T1 with
    | nil =>
      have hgp : genPath [a] = [a] := by
        rw [genPath_short (by simp), genAdjust_one]
      rw [dispatchKey_one, hgp, normalizeKey, trimSpace_eq_self hh hl,
        dispatchKey_one, hgp]
    | cons b T2 =>
      cases T2 with
      | nil =>
        by_cases ha : a = '^'
        · subst ha
          rw [dispatchKey_caret]
          by_cases hcc : classChar b = true
          · rw [if_pos hcc]
            rcases classChar_cases hcc with ⟨h1, h2⟩ | ⟨h1, h2⟩ | h0 | h0 | h0 | h0 | h0
            · rw [upperAscii_eq_self (by omega)]
              exact caret_fix_upper h1 h2
            · have h3 := upperAscii_toNat_lower h1 h2
              exact caret_fix_upper (by omega) (by omega)
            all_goals (subst h0; decide)
          · have hgp : genPath ['^', b] = ['^', b] := by
              rw [genPath_short (by simp), genAdjust_two_fix (by decide)]
            rw [if_neg hcc, hgp, normalizeKey, trimSpace_eq_self hh hl,
              dispatchKey_caret, if_neg hcc, hgp]
        · rw [dispatchKey_two a b ha]
          obtain ⟨z, hF⟩ := genAdjust_two a b
          have hgp : genPath [a, b] = [a, z] := by
            rw [genPath_short (by simp), hF]
          have hhF := genAdjust_head_not hh
          have hlF := genAdjust_last_not hl
          rw [hF] at hhF hlF
          rw [hgp, normalizeKey, trimSpace_eq_self hhF hlF, dispatchKey_two a z ha,
            genPath_short (by simp), ← hF]
          exact genAdjust_idem _
      | cons d T3 =>
        cases T3 with
        | nil =>
          by_cases hb : b = '-'
          · subst hb
            rw [dispatchKey_dash]
            by_cases h1 : ((a = 'C' || a = 'c') && classChar d) = true
            · rw [if_pos h1]
              rw [Bool.and_eq_true] at h1
              have hbd := classChar_upper_bounds h1.2
              exact ctrl_plus_fix (upperAscii d) (by omega)
                (char_ne_of_toNat (by rw [show ('+').toNat = 43 from rfl]; omega))
                (not_space_of_range (by omega) (by omega))
            · rw [if_neg h1]
              by_cases h2 : ((a = 'M' || a = 'm') && letterChar d) = true
              · rw [if_pos h2]
                rw [Bool.and_eq_true] at h2
                have hbd := letterChar_upper_bounds h2.2
                exact alt_plus_fix (upperAscii d) (by omega)
                  (char_ne_of_toNat (by rw [show ('+').toNat = 43 from rfl]; omega))
                  (not_space_of_range (by omega) (by omega))
              · have hgp : genPath [a, '-', d] = [a, '-', d] := by
                  rw [genPath_short (by simp), genAdjust_three_fix (by decide)]
                rw [if_neg h2, hgp, normalizeKey, trimSpace_eq_self hh hl,
                  dispatchKey_dash, if_neg h1, if_neg h2, hgp]
          · rw [dispatchKey_three a b d hb]
            obtain ⟨z, hF⟩ := genAdjust_three a b d
            have hgp : genPath [a, b, d] = [a, b, z] := by
              rw [genPath_short (by simp), hF]
            have hhF := genAdjust_head_not hh
            have hlF := genAdjust_last_not hl
            rw [hF] at hhF hlF
            rw [hgp, normalizeKey, trimSpace_eq_self hhF hlF,
              dispatchKey_three a b z hb, genPath_short (by simp), ← hF]
            exact genAdjust_idem _
        | cons e T4 =>
          rw [dispatchKey_big]
          have hh2 := genPath_head_not hh
          have hl2 := genPath_last_not hl
          have hlen : 4 ≤ (genPath (a :: b :: d :: e :: T4)).length :=
            genPath_length_ge (by
              rw [List.length_cons, List.length_cons, List.length_cons, List.length_cons]
              omega)
          obtain ⟨a2, b2, d2, e2, r2, hF⟩ := exists_cons4 hlen
          rw [normalizeKey, trimSpace_eq_self hh2 hl2, hF, dispatchKey_big, ← hF,
            genPath_idem]

/-- The key normalizer of shortcuts.go is idempotent. -/
theorem normalizeKey_idem (k : List Char) :
    normalizeKey (normalizeKey k) = normalizeKey k := by
  rw [normalizeKey]
  exact dispatch_idem (trimSpace k)
    (fun c hc => trimSpace_head_not hc)
    (fun c hc => trimSpace_getLast_not hc)

/-! ### The merge keeps one entry per normalized label -/

/-- Well-formedness of the intermediate catalog map: distinct keys, and every
entry sits under the normalization of its own display label. -/
def KeysInv (m : List (List Char × Shortcut)) : Prop :=
  (m.map Prod.fst).Nodup ∧ ∀ p ∈ m, normalizeKey p.2.display = p.1

theorem lookupA_mem {β : Type} {k : List Char} {v : β} {m : List (List Char × β)}
    (h : lookupA k m = some v) : (k, v) ∈ m := by
  induction m with
  | nil => exact Option.noConfusion h
  | cons p rest ih =>
    rcases p with ⟨k', v'⟩
    rw [lookupA] at h
    by_cases hk : k' = k
    · rw [if_pos hk] at h
      injection h with h2
      subst hk
      subst h2
      exact List.mem_cons_self _ _
    · rw [if_neg hk] at h
      exact List.mem_cons_of_mem _ (ih h)

theorem mem_keys_insertA {β : Type} {k x : List Char} {v : β} {m : List (List Char × β)}
    (h : x ∈ (insertA k v m).map Prod.fst) : x ∈ m.map Prod.fst ∨ x = k := by
  induction m with
  | nil =>
    right
    rw [show insertA k v ([] : List (List Char × β)) = [(k, v)] from rfl] at h
    simpa using h
  | cons p rest ih =>
    rcases p with ⟨k', v'⟩
    by_cases hk : k' = k
    · rw [insertA, if_pos hk, List.map_cons] at h
      rcases List.mem_cons.mp h with h0 | h0
      · right
        exact h0
      · left
        rw [List.map_cons]
        exact List.mem_cons_of_mem _ h0
    · rw [insertA, if_neg hk, List.map_cons] at h
      rcases List.mem_cons.mp h with h0 | h0
      · left
        rw [List.map_cons, h0]
        exact List.mem_cons_self _ _
      · rcases ih h0 with h1 | h1
        · left
          rw [List.map_cons]
          exact List.mem_cons_of_mem _ h1
        · right
          exact h1

theorem keys_nodup_insertA {β : Type} (k : List Char) (v : β) (m : List (List Char × β))
    (h : (m.map Prod.fst).Nodup) : ((insertA k v m).map Prod.fst).Nodup := by
  induction m with
  | nil => simp [insertA]
  | cons p rest ih =>
    rcases p with ⟨k', v'⟩
    rw [List.map_cons, List.nodup_cons] at h
    by_cases hk : k' = k
    · rw [insertA, if_pos hk, List.map_cons, List.nodup_cons]
      subst hk
      exact h
    · rw [insertA, if_neg hk, List.map_cons, List.nodup_cons]
      refine ⟨?_, ih h.2⟩
      intro hmem
      rcases mem_keys_insertA hmem with h1 | h1
      · exact h.1 h1
      · exact hk h1

theorem vals_insertA {β : Type} {P : List Char × β → Prop} {k : List Char} {v : β}
    {m : List (List Char × β)} (hm : ∀ p ∈ m, P p) (hkv : P (k, v)) :
    ∀ p ∈ insertA k v m, P p := by
  induction m with
  | nil =>
    intro p hp
    rw [show insertA k v ([] : List (List Char × β)) = [(k, v)] from rfl,
      List.mem_singleton] at hp
    subst hp
    exact hkv
  | cons q rest ih =>
    rcases q with ⟨k', v'⟩
    intro p hp
    by_cases hk : k' = k
    · rw [insertA, if_pos hk, List.mem_cons] at hp
      rcases hp with rfl | hp
      · exact hkv
      · exact hm p (List.mem_cons_of_mem _ hp)
    · rw [insertA, if_neg hk, List.mem_cons] at hp
      rcases hp with rfl | hp
      · exact hm _ (List.mem_cons_self _ _)
      · exact ih (fun q hq => hm q (List.mem_cons_of_mem _ hq)) p hp

theorem keysInv_insertA {k : List Char} {v : Shortcut} {m : List (List Char × Shortcut)}
    (h : KeysInv m) (hkv : normalizeKey v.display = k) : KeysInv (insertA k v m) :=
  ⟨keys_nodup_insertA k v m h.1, vals_insertA h.2 hkv⟩

theorem keysInv_eraseA {k : List Char} {m : List (List Char × Shortcut)}
    (h : KeysInv m) : KeysInv (eraseA k m) := by
  constructor
  · exact List.Nodup.sublist ((List.filter_sublist m).map Prod.fst) h.1
  · intro p hp
    exact h.2 p (List.mem_of_mem_filter hp)

theorem objApply_display (b : Shortcut) (de ty ta : Option (List Char)) :
    (objApply b none de ty ta).display = b.display := by
  cases de <;> cases ty <;> cases ta <;> rfl

theorem keysInv_mergeStep {m : List (List Char × Shortcut)} {kv : List Char × ConfigVal}
    (h : KeysInv m)
    (hobj : ∀ d de ty ta, kv.2 = ConfigVal.obj d de ty ta → d = none) :
    KeysInv (mergeStep m kv) := by
  rcases kv with ⟨L, val⟩
  cases val with
  | bool b =>
    have hres : mergeStep m (L, ConfigVal.bool b) =
        (if b = false then eraseA (normalizeKey L) m else m) := rfl
    rw [hres]
    by_cases hb : b = false
    · rw [if_pos hb]
      exact keysInv_eraseA h
    · rw [if_neg hb]
      exact h
  | strv v =>
    by_cases hv : v ≠ []
    · cases hlk : lookupA (normalizeKey L) m with
      | some existing =>
        have hres : mergeStep m (L, ConfigVal.strv v) =
            insertA (normalizeKey L)
              { existing with description := v, isCustom := true } m := by
          simp [mergeStep, hv, hlk]
        rw [hres]
        exact keysInv_insertA h (h.2 _ (lookupA_mem hlk))
      | none =>
        have hres : mergeStep m (L, ConfigVal.strv v) =
            insertA (normalizeKey L)
              { display := normalizeKey L, description := v, fullDescription := [],
                type := str "command", target := v, isCustom := true } m := by
          simp [mergeStep, hv, hlk]
        rw [hres]
        exact keysInv_insertA h (normalizeKey_idem L)
    · have hres : mergeStep m (L, ConfigVal.strv v) = m := by
        simp [mergeStep, hv]
      rw [hres]
      exact h
  | obj d de ty ta =>
    have hd : d = none := hobj d de ty ta rfl
    subst hd
    have hres : mergeStep m (L, ConfigVal.obj none de ty ta) =
        insertA (normalizeKey L)
          (objApply (objBase (normalizeKey L) m) none de ty ta) m := rfl
    rw [hres]
    apply keysInv_insertA h
    rw [objApply_display]
    cases hlk : lookupA (normalizeKey L) m with
    | some existing =>
      have hb : objBase (normalizeKey L) m = { existing with isCustom := true } := by
        rw [objBase, hlk]
      rw [hb]
      exact h.2 _ (lookupA_mem hlk)
    | none =>
      have hb : objBase (normalizeKey L) m =
          { display := normalizeKey L, description := [], fullDescription := [],
            type := [], target := [], isCustom := true } := by
        rw [objBase, hlk]
      rw [hb]
      exact normalizeKey_idem L

theorem keysInv_foldl_config {config : List (List Char × ConfigVal)}
    (hobj : ∀ kv ∈ config, ∀ d de ty ta, kv.2 = ConfigVal.obj d de ty ta → d = none) :
    ∀ m, KeysInv m → KeysInv (config.foldl mergeStep m) := by
  induction config with
  | nil => intro m h; exact h
  | cons kv rest ih =>
    intro m h
    rw [List.foldl_cons]
    exact ih (fun p hp => hobj p (List.mem_cons_of_mem _ hp)) _
      (keysInv_mergeStep h (hobj kv (List.mem_cons_self _ _)))

theorem keysInv_builtins (builtins : List Shortcut) :
    ∀ m, KeysInv m →
      KeysInv (builtins.foldl (fun m s => insertA (normalizeKey s.display) s m) m) := by
  induction builtins with
  | nil => intro m h; exact h
  | cons s rest ih =>
    intro m h
    rw [List.foldl_cons]
    exact ih _ (keysInv_insertA h rfl)

theorem keysInv_nil : KeysInv [] :=
  ⟨List.nodup_nil, fun p hp => absurd hp (List.not_mem_nil p)⟩

theorem keysInv_pairwise {m : List (List Char × Shortcut)} (h : KeysInv m) :
    (m.map (·.2)).Pairwise
      (fun a b => normalizeKey a.display ≠ normalizeKey b.display) := by
  rw [List.pairwise_map]
  have hkeys : m.Pairwise (fun p q => p.1 ≠ q.1) :=
    List.pairwise_map.mp h.1
  refine List.Pairwise.imp_of_mem ?_ hkeys
  intro a b ha hb hne
  rw [h.2 a ha, h.2 b hb]
  exact hne

/-- Claim C1 (amended): for every built-in list and every configuration whose
object-valued rules carry no display field, the catalog returned by
`mergeShortcuts` has pairwise-distinct display labels after normalization.
(The unrestricted statement is false: an object rule with a display field
overwrites the stored label without re-keying, see the counterexample.) -/
theorem c1_unique_display (builtins : List Shortcut)
    (config : List (List Char × ConfigVal))
    (hobj : ∀ kv ∈ config, ∀ d de ty ta, kv.2 = ConfigVal.obj d de ty ta → d = none) :
    (mergeShortcuts builtins config).Pairwise
      (fun a b => normalizeKey a.display ≠ normalizeKey b.display) := by
  have hinv : KeysInv (config.foldl mergeStep
      (builtins.foldl (fun m s => insertA (normalizeKey s.display) s m) [])) :=
    keysInv_foldl_config (fun kv hkv => hobj kv hkv) _
      (keysInv_builtins builtins [] keysInv_nil)
  have hpw := keysInv_pairwise hinv
  rw [mergeShortcuts]
  exact (List.Perm.pairwise_iff (fun hx => Ne.symm hx)
    (sortByDisplay_perm _)).mpr hpw

/-- Claim C1 witness: the amended uniqueness at a concrete builtin list and a
concrete configuration with a disable rule, a string override, and an
object rule without a display field. -/
theorem c1_unique_display_witness :
    (mergeShortcuts
        [{ display := str "Ctrl+A", description := str "Beginning of the line",
           fullDescription := [], type := str "widget",
           target := str "beginning-of-line", isCustom := false },
         { display := str "Tab", description := str "Complete",
           fullDescription := [], type := str "widget",
           target := str "expand-or-complete", isCustom := false }]
        [(str "Ctrl+A", ConfigVal.bool false),
         (str "^x", ConfigVal.strv (str "do-thing")),
         (str "Tab", ConfigVal.obj none (some (str "Completion")) none none)]).Pairwise
      (fun a b => normalizeKey a.display ≠ normalizeKey b.display) :=
  c1_unique_display _ _ (by
    intro kv hkv d de ty ta heq
    simp only [List.mem_cons, List.not_mem_nil, or_false] at hkv
    rcases hkv with rfl | rfl | rfl <;> simp_all)

end Shortcutter
